import Mathlib

/-!
# RMATH: a verification development for `RMATH.h`

A shallow embedding of the numeric toolkit of `RMATH.h`.

* `int` and `long long` are integers reduced to 32 and 64 bits in two's
  complement (`wrap32`, `wrap64`).
* `double` is an arbitrary type `α` with the operations the code uses: a
  field for exact arithmetic, and `Double` for the binary64 arithmetic of the
  machine, with its rounding, overflow and underflow.
* A call returns an `Outcome`: a value, a thrown `std::invalid_argument`,
  an out-of-range `operator[]`, a loop that is still running when the fuel
  is used up, or a broken precondition of the standard library.
* `std::atomic<int>` is an integer cell under sequentially consistent
  interleaving: every atomic member call is one step of one thread.
* `std::sqrt`, `std::cos`, `std::sin` and the distributions of `<random>` are
  parameters (`Cmath`, `StdRandom`); theorems state what they assume of them.
-/

namespace RMATH

/-! ## Outcomes and machine integers -/

/-- What a call of a function of `RMATH` does. -/
inductive Outcome (α : Type) where
  /-- The call returns `v`. -/
  | value (v : α) : Outcome α
  /-- The call throws `std::invalid_argument(what)`. -/
  | invalidArgument (what : String) : Outcome α
  /-- The call indexes a `std::vector` out of range. -/
  | outOfRange : Outcome α
  /-- The call has not returned within the fuel given. -/
  | running : Outcome α
  /-- The call breaks a precondition of a standard library function it calls:
  C++ defines no behaviour for it. -/
  | undefined : Outcome α
  deriving DecidableEq

/-- Reduction to `int`: 32 bits, two's complement. -/
def wrap32 (x : Int) : Int :=
  (x + 2147483648) % 4294967296 - 2147483648

/-- Reduction to `long long`: 64 bits, two's complement. -/
def wrap64 (x : Int) : Int :=
  (x + 9223372036854775808) % 18446744073709551616 - 9223372036854775808

/-- The largest `int`. -/
def INT_MAX : Int := 2147483647

/-! ## Scalar functions -/

/-- `RMATH::Divide`: throws on `b == 0`, else `static_cast<double>(a) / b`. -/
def Divide {α : Type} [IntCast α] [Div α] (a b : Int) : Outcome α :=
  if b = 0 then .invalidArgument "Division by zero."
  else .value ((a : α) / (b : α))

/-- The loop `for (int i = 1; i <= n; ++i) result *= i;` of `RMATH::Factorial`,
from the test of its condition on: `i` is an `int`, `result` a `long long`,
and each test of the condition takes one unit of fuel. -/
def FactorialLoop (n : Int) : Nat → Int → Int → Outcome Int
  | 0, _, _ => .running
  | fuel + 1, i, result =>
    if i ≤ n then FactorialLoop n fuel (wrap32 (i + 1)) (wrap64 (result * i))
    else .value result

/-- `RMATH::Factorial`: throws on `n < 0`, else runs the loop from
`result = 1`, `i = 1`. -/
def Factorial (fuel : Nat) (n : Int) : Outcome Int :=
  if n < 0 then .invalidArgument "Factorial of negative number."
  else FactorialLoop n fuel 1 1

/-! ## Matrices

A `std::vector<std::vector<double>>` is a list of rows. `operator[]` out of
range has no defined behaviour: reads and writes return `none` there, and
the enclosing call ends `outOfRange`. -/

section Matrices

variable {α : Type}

/-- Reading `m[i][j]`. -/
def read (m : List (List α)) (i j : Nat) : Option α :=
  match m[i]? with
  | none => none
  | some row => row[j]?

/-- The assignment `result[i][j] = v`. -/
def assign (result : List (List α)) (i j : Nat) (v : α) : Option (List (List α)) :=
  match result[i]? with
  | none => none
  | some row => if j < row.length then some (result.set i (row.set j v)) else none

/-- The loop `for (size_t i = 0; i < n; ++i) body`, over a state `σ`. -/
def forLoop {σ : Type} (n : Nat) (body : Nat → σ → Option σ) (s : σ) : Option σ :=
  (List.range n).foldlM (fun s i => body i s) s

/-- `RMATH::AddMatrices`. The guard compares `a.size()` with `b.size()` and,
only if these agree, `a[0].size()` with `b[0].size()`; `result` starts as
`a.size()` rows of `a[0].size()` zeros; row `i` is filled for
`j < a[i].size()`. -/
def AddMatrices [Zero α] [Add α] (a b : List (List α)) : Outcome (List (List α)) :=
  if a.length ≠ b.length then
    .invalidArgument "Matrices must have the same dimensions."
  else
    match a[0]?, b[0]? with
    | some a0, some b0 =>
      if a0.length ≠ b0.length then
        .invalidArgument "Matrices must have the same dimensions."
      else
        let result := List.replicate a.length (List.replicate a0.length (0 : α))
        let filled :=
          forLoop a.length (fun i result =>
            match a[i]? with
            | none => none
            | some ai =>
              forLoop ai.length (fun j result =>
                match read a i j, read b i j with
                | some x, some y => assign result i j (x + y)
                | _, _ => none) result) result
        match filled with
        | some result => .value result
        | none => .outOfRange
    | _, _ => .outOfRange

/-- `RMATH::MultiplyMatrices`. The guard compares `a[0].size()` with
`b.size()`; `result` starts as `a.size()` rows of `b[0].size()` zeros; the
three loops run `i < a.size()`, `j < b[0].size()`, `k < a[0].size()` with body
`result[i][j] += a[i][k] * b[k][j]`. -/
def MultiplyMatrices [Zero α] [Add α] [Mul α] (a b : List (List α)) :
    Outcome (List (List α)) :=
  match a[0]? with
  | none => .outOfRange
  | some a0 =>
    if a0.length ≠ b.length then
      .invalidArgument "Invalid matrix dimensions for multiplication."
    else
      match b[0]? with
      | none => .outOfRange
      | some b0 =>
        let result := List.replicate a.length (List.replicate b0.length (0 : α))
        let filled :=
          forLoop a.length (fun i result =>
            forLoop b0.length (fun j result =>
              forLoop a0.length (fun k result =>
                match read result i j, read a i k, read b k j with
                | some r, some x, some y => assign result i j (r + x * y)
                | _, _, _ => none) result) result) result
        match filled with
        | some result => .value result
        | none => .outOfRange

/-- A matrix of `rows` rows, each of length `cols`. -/
def IsMatrix (m : List (List α)) (rows cols : Nat) : Prop :=
  m.length = rows ∧ ∀ row ∈ m, row.length = cols

/-- The entry `m[i][j]` as a total function (zero out of range). -/
def entry [Zero α] (m : List (List α)) (i j : Nat) : α :=
  (m.getD i []).getD j 0

end Matrices

/-! ## Atomic counters

A `std::atomic<int>` is an integer cell shared by the calls in flight. Each
atomic member call (`load`, `fetch_add`, `fetch_sub`,
`compare_exchange_weak`) is one indivisible step; the steps of different
threads interleave in any order. A `compare_exchange_weak` may also fail
although the cell holds the expected value: the flag `spurious` of a step
says whether it does. -/

/-- Where one call of an atomic operation stands. -/
inductive Call where
  /-- Called, nothing executed yet. -/
  | entry : Call
  /-- In `AtomicDivide`: past the guard `value == 0`, before `target.load()`. -/
  | checked : Call
  /-- About to run `compare_exchange_weak` with the local `expected`. -/
  | loop (expected : Int) : Call
  /-- Returned to the caller. -/
  | returned : Call
  /-- Left by `throw std::invalid_argument(what)`. -/
  | threw (what : String) : Call
  /-- Stopped in the evaluation of `expected / value` at `INT_MIN / -1`: the
  quotient is no `int`, C++ defines no result, and the division instruction
  traps. The call never returns. -/
  | trapped : Call
  deriving DecidableEq

/-- One step of `RMATH::AtomicAdd(target, value)`: `target.fetch_add(value)`,
on the pair of the call's position and the cell. -/
def AtomicAdd (value : Int) : Call × Int → Call × Int
  | (.entry, target) => (.returned, wrap32 (target + value))
  | s => s

/-- One step of `RMATH::AtomicSubtract(target, value)`:
`target.fetch_sub(value)`. -/
def AtomicSubtract (value : Int) : Call × Int → Call × Int
  | (.entry, target) => (.returned, wrap32 (target - value))
  | s => s

/-- One step of `RMATH::AtomicMultiply(target, value)`: first
`int expected = target.load()`, then one `compare_exchange_weak(expected,
expected * value)` per step. The exchange stores and ends the loop when the
cell holds `expected` and the step is not a spurious failure; otherwise it
copies the cell into `expected` and the loop goes on. -/
def AtomicMultiply (value : Int) (spurious : Bool) : Call × Int → Call × Int
  | (.entry, target) => (.loop target, target)
  | (.loop expected, target) =>
    if target = expected ∧ spurious = false then (.returned, wrap32 (expected * value))
    else (.loop target, target)
  | s => s

/-- One step of `RMATH::AtomicDivide(target, value)`: the guard
`if (value == 0) throw`, then `int expected = target.load()`, then one
`compare_exchange_weak(expected, expected / value)` per step. The argument
`expected / value` is evaluated before the exchange: it truncates toward
zero, and at `INT_MIN / -1` it overflows and the call stops there, the cell
untouched. -/
def AtomicDivide (value : Int) (spurious : Bool) : Call × Int → Call × Int
  | (.entry, target) =>
    if value = 0 then (.threw "Division by zero.", target) else (.checked, target)
  | (.checked, target) => (.loop target, target)
  | (.loop expected, target) =>
    if expected = -2147483648 ∧ value = -1 then (.trapped, target)
    else if target = expected ∧ spurious = false then
      (.returned, Int.tdiv expected value)
    else (.loop target, target)
  | s => s

/-- A call running with no other thread: one step per flag. -/
def runAlone (op : Bool → Call × Int → Call × Int) (flags : List Bool)
    (s : Call × Int) : Call × Int :=
  flags.foldl (fun s spurious => op spurious s) s

/-- The shared cell and the calls in flight, one per thread. -/
structure Shared where
  /-- The value of the cell. -/
  target : Int
  /-- The position of the call of each thread. -/
  calls : List Call
  deriving DecidableEq

/-- Thread `t` takes one step of its call `op`. -/
def stepThread (op : Bool → Call × Int → Call × Int) (s : Shared) (t : Nat)
    (spurious : Bool) : Shared :=
  match s.calls[t]? with
  | none => s
  | some c => ⟨(op spurious (c, s.target)).2, s.calls.set t (op spurious (c, s.target)).1⟩

/-- An interleaving: the threads step in the order of `schedule`. -/
def interleave (op : Bool → Call × Int → Call × Int) (schedule : List (Nat × Bool))
    (s : Shared) : Shared :=
  schedule.foldl (fun s e => stepThread op s e.1 e.2) s

/-- Thread `t`, if it has calls of `AtomicAdd(cell, value)` left to make,
makes one; the state is the cell with the number of calls each thread has
left. -/
def stepAdder (value : Int) (s : Int × List Nat) (t : Nat) : Int × List Nat :=
  match s.2[t]? with
  | some (k + 1) => ((AtomicAdd value (.entry, s.1)).2, s.2.set t k)
  | _ => s

/-- An interleaving of threads that each call `AtomicAdd(cell, value)` a
number of times. -/
def interleaveAdders (value : Int) (schedule : List Nat) (s : Int × List Nat) :
    Int × List Nat :=
  schedule.foldl (stepAdder value) s

/-! ## Vectors of fixed size

`Vec2` and `Vec3` hold `double` components. The functions of `<cmath>` that
their methods call are parameters of the model. -/

/-- The functions `std::sqrt`, `std::cos` and `std::sin` on `double`. -/
structure Cmath (α : Type) where
  /-- The function `std::sqrt`. -/
  sqrt : α → α
  /-- The function `std::cos`. -/
  cos : α → α
  /-- The function `std::sin`. -/
  sin : α → α

/-- The struct `RMATH::Vec2`. -/
@[ext]
structure Vec2 (α : Type) where
  /-- The member `x`. -/
  x : α
  /-- The member `y`. -/
  y : α
  deriving DecidableEq

/-- The struct `RMATH::Vec3`. -/
@[ext]
structure Vec3 (α : Type) where
  /-- The member `x`. -/
  x : α
  /-- The member `y`. -/
  y : α
  /-- The member `z`. -/
  z : α
  deriving DecidableEq

section Vectors

variable {α : Type}

/-- `Vec2::operator+`. -/
instance [Add α] : Add (Vec2 α) := ⟨fun a b => ⟨a.x + b.x, a.y + b.y⟩⟩

/-- `Vec2::operator-`. -/
instance [Sub α] : Sub (Vec2 α) := ⟨fun a b => ⟨a.x - b.x, a.y - b.y⟩⟩

/-- `Vec2::operator*(double)`. -/
instance [Mul α] : HMul (Vec2 α) α (Vec2 α) :=
  ⟨fun a scalar => ⟨a.x * scalar, a.y * scalar⟩⟩

/-- `Vec2::Dot`. -/
def Vec2.Dot [Add α] [Mul α] (a other : Vec2 α) : α :=
  a.x * other.x + a.y * other.y

/-- `Vec2::Magnitude`. -/
def Vec2.Magnitude [Add α] [Mul α] (M : Cmath α) (a : Vec2 α) : α :=
  M.sqrt (a.x * a.x + a.y * a.y)

/-- `Vec2::Normalize`: throws when the magnitude is `0`, else scales by
`1.0 / mag`. -/
def Vec2.Normalize [Zero α] [One α] [Add α] [Mul α] [Div α] [DecidableEq α] (M : Cmath α)
    (a : Vec2 α) : Outcome (Vec2 α) :=
  if a.Magnitude M = 0 then .invalidArgument "Cannot normalize a zero vector."
  else .value (a * (1 / a.Magnitude M))

/-- `Vec3::operator+`. -/
instance [Add α] : Add (Vec3 α) := ⟨fun a b => ⟨a.x + b.x, a.y + b.y, a.z + b.z⟩⟩

/-- `Vec3::operator-`. -/
instance [Sub α] : Sub (Vec3 α) := ⟨fun a b => ⟨a.x - b.x, a.y - b.y, a.z - b.z⟩⟩

/-- `Vec3::operator*(double)`. -/
instance [Mul α] : HMul (Vec3 α) α (Vec3 α) :=
  ⟨fun a scalar => ⟨a.x * scalar, a.y * scalar, a.z * scalar⟩⟩

/-- `Vec3::Cross`. -/
def Vec3.Cross [Sub α] [Mul α] (a other : Vec3 α) : Vec3 α :=
  ⟨a.y * other.z - a.z * other.y, a.z * other.x - a.x * other.z,
    a.x * other.y - a.y * other.x⟩

/-- `Vec3::Dot`. -/
def Vec3.Dot [Add α] [Mul α] (a other : Vec3 α) : α :=
  a.x * other.x + a.y * other.y + a.z * other.z

/-- `Vec3::Magnitude`. -/
def Vec3.Magnitude [Add α] [Mul α] (M : Cmath α) (a : Vec3 α) : α :=
  M.sqrt (a.x * a.x + a.y * a.y + a.z * a.z)

/-- `Vec3::Normalize`: throws when the magnitude is `0`, else scales by
`1.0 / mag`. -/
def Vec3.Normalize [Zero α] [One α] [Add α] [Mul α] [Div α] [DecidableEq α] (M : Cmath α)
    (a : Vec3 α) : Outcome (Vec3 α) :=
  if a.Magnitude M = 0 then .invalidArgument "Cannot normalize a zero vector."
  else .value (a * (1 / a.Magnitude M))

/-- `Vec3::ProjectOnto`: no statement of it throws; it divides by
`other.Magnitude() * other.Magnitude()` and returns. -/
def Vec3.ProjectOnto [Add α] [Mul α] [Div α] (M : Cmath α) (a other : Vec3 α) :
    Outcome (Vec3 α) :=
  .value (other * (a.Dot other / (other.Magnitude M * other.Magnitude M)))

/-- `Vec3::Rotate`: normalises `axis` (which may throw), then returns
`v * cos + (n × v) * sin + n * ((n · v) * (1 - cos))`. -/
def Vec3.Rotate [Zero α] [One α] [Add α] [Sub α] [Mul α] [Div α] [DecidableEq α]
    (M : Cmath α) (a axis : Vec3 α) (angleRadians : α) : Outcome (Vec3 α) :=
  match axis.Normalize M with
  | .value normalizedAxis =>
    .value (a * M.cos angleRadians
      + normalizedAxis.Cross a * M.sin angleRadians
      + normalizedAxis * (normalizedAxis.Dot a * (1 - M.cos angleRadians)))
  | .invalidArgument what => .invalidArgument what
  | .outOfRange => .outOfRange
  | .running => .running
  | .undefined => .undefined

/-- `RMATH::DotProduct`: throws when the sizes differ, else accumulates
`a[i] * b[i]` for `i < a.size()` from `0`. -/
def DotProduct [Zero α] [Add α] [Mul α] (a b : List α) : Outcome α :=
  if a.length ≠ b.length then .invalidArgument "Vectors must be of the same size."
  else
    match forLoop a.length (fun i result =>
        match a[i]?, b[i]? with
        | some x, some y => some (result + x * y)
        | _, _ => none) (0 : α) with
    | some result => .value result
    | none => .outOfRange

end Vectors

/-! ## Random source

`RandomInt` and `RandomDouble` hold a `static std::mt19937` and call a
distribution of `<random>` on it. The generator state is passed in and out.
The C++ standard requires `a ≤ b` of `std::uniform_int_distribution<>(a, b)`
and of `std::uniform_real_distribution<>(a, b)`; what they draw on such a
range is a parameter, and on any other range there is no defined
behaviour. -/

/-- The draws of the distributions of `<random>` on the ranges the standard
allows, over a generator state `G`: `uniformInt a b gen` is
`std::uniform_int_distribution<>(a, b)(gen)` and `uniformReal a b gen` is
`std::uniform_real_distribution<>(a, b)(gen)`, each with the state of the
generator afterwards. -/
structure StdRandom (G α : Type) where
  /-- The draw of `std::uniform_int_distribution<>(a, b)`, `a ≤ b`. -/
  uniformInt : Int → Int → G → Int × G
  /-- The draw of `std::uniform_real_distribution<>(a, b)`, `a ≤ b`. -/
  uniformReal : α → α → G → α × G

/-- `RMATH::RandomInt`: builds the distribution on `(min, max)` and returns
its draw; the function has no other statement, so `min ≤ max` is checked by
nobody and a reversed range breaks the precondition of the distribution. -/
def RandomInt {G α : Type} (R : StdRandom G α) (min max : Int) (gen : G) :
    Outcome (Int × G) :=
  if min ≤ max then .value (R.uniformInt min max gen) else .undefined

/-- `RMATH::RandomDouble`: builds the distribution on `(min, max)` and
returns its draw; the function has no other statement, so `min ≤ max` is
checked by nobody and a reversed range breaks the precondition of the
distribution. -/
def RandomDouble {G α : Type} [LE α] [DecidableRel (fun a b : α => a ≤ b)]
    (R : StdRandom G α) (min max : α) (gen : G) : Outcome (α × G) :=
  if min ≤ max then .value (R.uniformReal min max gen) else .undefined

/-! ## Binary64 arithmetic

The exact model of `double` is any field. The machine's `double` is the
IEEE 754 binary64 format, modelled by `Double`: the finite values are
rationals, every operation returns the exact result rounded to the nearest
binary64 value, ties to even, and a result too large in magnitude is an
infinity. The sign of zero is not kept: there is one zero, and a zero
divisor counts as `+0.0` (the only zero `RMATH.h` divides by, a magnitude or
its square). Equality on `Double` is `==` of C++ except on NaN; the code
compares with `0` only. -/

/-- A binary64 value: a finite number, an infinity with its sign, or a NaN. -/
inductive Double where
  /-- A finite value, the number `q`. -/
  | finite (q : ℚ) : Double
  /-- An infinity, negative or positive. -/
  | inf (negative : Bool) : Double
  /-- A NaN. -/
  | nan : Double
  deriving DecidableEq

/-- Rounding of a rational to an integer, to nearest, ties to even. -/
def roundHalfEven (x : ℚ) : ℤ :=
  if x - ⌊x⌋ < 1 / 2 then ⌊x⌋
  else if 1 / 2 < x - ⌊x⌋ then ⌊x⌋ + 1
  else if ⌊x⌋ % 2 = 0 then ⌊x⌋
  else ⌊x⌋ + 1

/-- Rounding of an exact result to binary64: 53 significant bits, the
exponent at least `-1022` (below it the spacing stays `2 ^ (-1074)`), to
nearest, ties to even; a rounded magnitude of `2 ^ 1024` or more overflows
to the infinity of the sign of the result. -/
def Double.round (q : ℚ) : Double :=
  if q = 0 then .finite 0
  else if 2 ^ 1024 ≤ |(roundHalfEven (q / 2 ^ (max (Int.log 2 |q|) (-1022) - 52)) : ℚ)
      * 2 ^ (max (Int.log 2 |q|) (-1022) - 52)| then
    .inf (decide (q < 0))
  else
    .finite ((roundHalfEven (q / 2 ^ (max (Int.log 2 |q|) (-1022) - 52)) : ℚ)
      * 2 ^ (max (Int.log 2 |q|) (-1022) - 52))

/-- Negation of a binary64 value. -/
def Double.neg : Double → Double
  | .finite q => .finite (-q)
  | .inf negative => .inf (!negative)
  | .nan => .nan

/-- Addition of binary64 values. -/
def Double.add : Double → Double → Double
  | .nan, _ => .nan
  | _, .nan => .nan
  | .inf s, .inf t => if s = t then .inf s else .nan
  | .inf s, .finite _ => .inf s
  | .finite _, .inf t => .inf t
  | .finite a, .finite b => Double.round (a + b)

/-- Multiplication of binary64 values. -/
def Double.mul : Double → Double → Double
  | .nan, _ => .nan
  | _, .nan => .nan
  | .inf s, .inf t => .inf (s != t)
  | .inf s, .finite b => if b = 0 then .nan else .inf (s != decide (b < 0))
  | .finite a, .inf t => if a = 0 then .nan else .inf (decide (a < 0) != t)
  | .finite a, .finite b => Double.round (a * b)

/-- Division of binary64 values. -/
def Double.div : Double → Double → Double
  | .nan, _ => .nan
  | _, .nan => .nan
  | .inf _, .inf _ => .nan
  | .inf s, .finite b => .inf (s != decide (b < 0))
  | .finite _, .inf _ => .finite 0
  | .finite a, .finite b =>
    if b = 0 then (if a = 0 then .nan else .inf (decide (a < 0)))
    else Double.round (a / b)

/-- The function `std::sqrt` on binary64: the exact square root rounded to
nearest. With `quantum` the spacing of binary64 at the root, the root is
`sqrt (q / quantum²)` quanta; that count has integer part `k` and is rounded
by comparing `q / quantum²` with `(k + 1/2)²`. -/
def Double.sqrt : Double → Double
  | .nan => .nan
  | .inf negative => if negative then .nan else .inf false
  | .finite q =>
    if q < 0 then .nan
    else if q = 0 then .finite 0
    else
      let quantum : ℚ := 2 ^ (Int.log 2 q / 2 - 52)
      let x : ℚ := q / (quantum * quantum)
      let k : ℕ := Nat.sqrt ⌊x⌋₊
      let half : ℚ := (k : ℚ) + 1 / 2
      let n : ℕ :=
        if x < half * half then k
        else if half * half < x then k + 1
        else if k % 2 = 0 then k
        else k + 1
      .finite ((n : ℚ) * quantum)

/-- The value `0.0`. -/
instance : Zero Double := ⟨.finite 0⟩

/-- The value `1.0`. -/
instance : One Double := ⟨.finite 1⟩

/-- The operator `+` of `double`. -/
instance : Add Double := ⟨Double.add⟩

/-- The unary operator `-` of `double`. -/
instance : Neg Double := ⟨Double.neg⟩

/-- The operator `-` of `double`. -/
instance : Sub Double := ⟨fun a b => Double.add a (Double.neg b)⟩

/-- The operator `*` of `double`. -/
instance : Mul Double := ⟨Double.mul⟩

/-- The operator `/` of `double`. -/
instance : Div Double := ⟨Double.div⟩

/-- The conversion `static_cast<double>` of an integer. -/
instance : IntCast Double := ⟨fun n => Double.round n⟩

/-! ## Machine integers -/

theorem wrap32_of_int {x : Int} (h₁ : -2147483648 ≤ x) (h₂ : x ≤ 2147483647) :
    wrap32 x = x := by
  unfold wrap32; omega

theorem wrap32_bounds (x : Int) : -2147483648 ≤ wrap32 x ∧ wrap32 x ≤ 2147483647 := by
  unfold wrap32; omega

theorem wrap64_modEq (x : Int) : wrap64 x ≡ x [ZMOD 18446744073709551616] := by
  unfold wrap64 Int.ModEq; omega

theorem wrap64_congr {x y : Int} (h : x ≡ y [ZMOD 18446744073709551616]) :
    wrap64 x = wrap64 y := by
  unfold wrap64
  unfold Int.ModEq at h
  omega

theorem wrap64_mul_left (x y : Int) : wrap64 (wrap64 x * y) = wrap64 (x * y) :=
  wrap64_congr ((wrap64_modEq x).mul_right y)

theorem wrap64_of_long {x : Int} (h₁ : -9223372036854775808 ≤ x)
    (h₂ : x ≤ 9223372036854775807) : wrap64 x = x := by
  unfold wrap64; omega

/-! ## Factorial -/

theorem Factorial_of_neg (fuel : Nat) {n : Int} (h : n < 0) :
    Factorial fuel n = .invalidArgument "Factorial of negative number." := by
  simp [Factorial, h]

/-- The loop from `i = k + 1` with `result = k!` on, `k ≤ m < INT_MAX`. -/
theorem FactorialLoop_from (m : Nat) (hm : (m : Int) < 2147483647) :
    ∀ (d k : Nat), k + d = m → ∀ fuel : Nat, d < fuel →
      FactorialLoop (m : Int) fuel ((k : Int) + 1) (wrap64 ((k.factorial : Nat) : Int))
        = .value (wrap64 ((m.factorial : Nat) : Int)) := by
  intro d
  induction d with
  | zero =>
    intro k hk fuel hf
    obtain ⟨f, rfl⟩ : ∃ f, fuel = f + 1 := ⟨fuel - 1, by omega⟩
    have hkm : k = m := by omega
    subst hkm
    simp [FactorialLoop]
  | succ d ih =>
    intro k hk fuel hf
    obtain ⟨f, rfl⟩ : ∃ f, fuel = f + 1 := ⟨fuel - 1, by omega⟩
    have hle : (k : Int) + 1 ≤ (m : Int) := by omega
    have hw : wrap32 ((k : Int) + 1 + 1) = ((k + 1 : Nat) : Int) + 1 := by
      rw [wrap32_of_int (by omega) (by omega)]; push_cast; ring
    have hr : wrap64 (wrap64 ((k.factorial : Nat) : Int) * ((k : Int) + 1))
        = wrap64 (((k + 1).factorial : Nat) : Int) := by
      rw [wrap64_mul_left, Nat.factorial_succ]; push_cast; ring_nf
    rw [FactorialLoop, if_pos hle, hw, hr]
    exact ih (k + 1) (by omega) f (by omega)

/-- Below `INT_MAX` the call returns `n!` reduced to 64 bits, given more
fuel than `n`. -/
theorem Factorial_eq (m : Nat) (hm : (m : Int) < 2147483647) (fuel : Nat) (hf : m < fuel) :
    Factorial fuel (m : Int) = .value (wrap64 ((m.factorial : Nat) : Int)) := by
  have h := FactorialLoop_from m hm m 0 (by omega) fuel hf
  simpa [Factorial] using h

/-- With `n = INT_MAX` the condition `i <= n` holds of every `int`. -/
theorem FactorialLoop_INT_MAX (fuel : Nat) :
    ∀ i result : Int, -2147483648 ≤ i → i ≤ 2147483647 →
      FactorialLoop 2147483647 fuel i result = .running := by
  induction fuel with
  | zero => intro i result _ _; rfl
  | succ f ih =>
    intro i result h₁ h₂
    rw [FactorialLoop, if_pos h₂]
    exact ih _ _ (wrap32_bounds _).1 (wrap32_bounds _).2

/-- C5 (defect at the largest `int`): `RMATH::Factorial(INT_MAX)`, that is
`Factorial(2147483647)`, never returns. Its loop condition `i <= n` is true of every `int` `i`, and `++i`
wraps from `INT_MAX` to `INT_MIN`, so whatever the fuel the loop is still
running; the product `1 * 2 * ... * n` reduced to 64 bits, which every
smaller `n ≥ 0` returns, is not returned here. -/
theorem Factorial_INT_MAX_never_returns :
    ∀ fuel : Nat, Factorial fuel INT_MAX = .running := by
  intro fuel
  have h := FactorialLoop_INT_MAX fuel 1 1 (by norm_num) (by norm_num)
  simpa [Factorial, INT_MAX] using h

/-! ## Loops and matrices -/

section MatrixLemmas

variable {α : Type} [Field α]

theorem forLoop_succ {σ : Type} (n : Nat) (body : Nat → σ → Option σ) (s : σ) :
    forLoop (n + 1) body s = (forLoop n body s).bind (body n) := by
  simp [forLoop, List.range_succ, List.foldlM_append]

/-- Invariant rule for `forLoop`: an invariant that holds at entry and is
carried by every iteration (which is then defined) holds at exit, and the
loop is defined. -/
theorem forLoop_invariant {σ : Type} (Inv : Nat → σ → Prop) (n : Nat)
    (body : Nat → σ → Option σ) (s : σ) (h0 : Inv 0 s)
    (hstep : ∀ i, i < n → ∀ t, Inv i t → ∃ t', body i t = some t' ∧ Inv (i + 1) t') :
    ∃ t, forLoop n body s = some t ∧ Inv n t := by
  induction n with
  | zero => exact ⟨s, rfl, h0⟩
  | succ n ih =>
    obtain ⟨t, ht, hinv⟩ := ih (fun i hi => hstep i (by omega))
    obtain ⟨t', ht', hinv'⟩ := hstep n (by omega) t hinv
    exact ⟨t', by rw [forLoop_succ, ht]; exact ht', hinv'⟩

theorem entry_eq (m : List (List α)) (i j : Nat) :
    entry m i j = ((m[i]?).getD [])[j]?.getD 0 := by
  simp [entry, List.getD_eq_getElem?_getD]

theorem IsMatrix.row {β : Type} {m : List (List β)} {rows cols : Nat}
    (h : IsMatrix m rows cols)
    {i : Nat} (hi : i < rows) : ∃ row, m[i]? = some row ∧ row.length = cols := by
  have hlt : i < m.length := by rw [h.1]; exact hi
  exact ⟨m[i], List.getElem?_eq_getElem hlt, h.2 _ (List.getElem_mem hlt)⟩

theorem read_of_isMatrix {m : List (List α)} {rows cols : Nat} (h : IsMatrix m rows cols)
    {i j : Nat} (hi : i < rows) (hj : j < cols) : read m i j = some (entry m i j) := by
  obtain ⟨row, hrow, hlen⟩ := h.row hi
  have hj' : j < row.length := by omega
  simp [read, entry_eq, hrow, List.getElem?_eq_getElem hj']

theorem entry_of_rows_le {m : List (List α)} {rows cols : Nat} (h : IsMatrix m rows cols)
    {i : Nat} (hi : rows ≤ i) (j : Nat) : entry m i j = 0 := by
  have : m[i]? = none := List.getElem?_eq_none (by rw [h.1]; exact hi)
  simp [entry_eq, this]

theorem entry_of_cols_le {m : List (List α)} {rows cols : Nat} (h : IsMatrix m rows cols)
    (i : Nat) {j : Nat} (hj : cols ≤ j) : entry m i j = 0 := by
  by_cases hi : i < rows
  · obtain ⟨row, hrow, hlen⟩ := h.row hi
    have : row[j]? = none := List.getElem?_eq_none (by omega)
    simp [entry_eq, hrow, this]
  · exact entry_of_rows_le h (by omega) j

/-- The assignment `result[i][j] = v` inside a matrix: defined, keeps the
shape, changes entry `(i, j)` and no other. -/
theorem assign_of_isMatrix {r : List (List α)} {rows cols : Nat} (h : IsMatrix r rows cols)
    {i j : Nat} (hi : i < rows) (hj : j < cols) (v : α) :
    ∃ r', assign r i j v = some r' ∧ IsMatrix r' rows cols ∧
      ∀ i' j', entry r' i' j' = if i' = i ∧ j' = j then v else entry r i' j' := by
  obtain ⟨row, hrow, hlen⟩ := h.row hi
  have hj' : j < row.length := by omega
  have hil : i < r.length := by rw [h.1]; exact hi
  refine ⟨r.set i (row.set j v), by simp [assign, hrow, hj'], ⟨by simp [h.1], ?_⟩, ?_⟩
  · intro row' hmem
    rcases List.mem_or_eq_of_mem_set hmem with hm | rfl
    · exact h.2 _ hm
    · simp [hlen]
  · intro i' j'
    by_cases hii : i' = i
    · subst hii
      by_cases hjj : j' = j
      · subst hjj
        simp [entry_eq, List.getElem?_set, hil, hj']
      · have : ¬ j = j' := fun e => hjj e.symm
        simp [entry_eq, List.getElem?_set, hil, hrow, this, hjj]
    · have : ¬ i = i' := fun e => hii e.symm
      simp [entry_eq, List.getElem?_set, this, hii]

theorem isMatrix_replicate {β : Type} (rows cols : Nat) (x : β) :
    IsMatrix (List.replicate rows (List.replicate cols x)) rows cols := by
  refine ⟨by simp, ?_⟩
  intro row hrow
  rw [List.eq_of_mem_replicate hrow]
  simp

theorem entry_replicate_zero (rows cols i j : Nat) :
    entry (List.replicate rows (List.replicate cols (0 : α))) i j = 0 := by
  by_cases hi : i < rows
  · by_cases hj : j < cols
    · simp [entry_eq, List.getElem?_replicate, hi, hj]
    · exact entry_of_cols_le (isMatrix_replicate rows cols 0) i (by omega)
  · exact entry_of_rows_le (isMatrix_replicate rows cols 0) (by omega) j

/-- Two matrices of one shape with the same entries are the same list of rows. -/
theorem IsMatrix.ext {r s : List (List α)} {rows cols : Nat} (hr : IsMatrix r rows cols)
    (hs : IsMatrix s rows cols)
    (h : ∀ i j, i < rows → j < cols → entry r i j = entry s i j) : r = s := by
  apply List.ext_getElem (by rw [hr.1, hs.1])
  intro i h₁ h₂
  have hi : i < rows := by rw [← hr.1]; exact h₁
  have hrl : (r[i]).length = cols := hr.2 _ (List.getElem_mem h₁)
  have hsl : (s[i]).length = cols := hs.2 _ (List.getElem_mem h₂)
  apply List.ext_getElem (by rw [hrl, hsl])
  intro j h₃ h₄
  have := h i j hi (by omega)
  simpa [entry_eq, List.getElem?_eq_getElem h₁, List.getElem?_eq_getElem h₂,
    List.getElem?_eq_getElem h₃, List.getElem?_eq_getElem h₄] using this

end MatrixLemmas

/-! ## MultiplyMatrices -/

section MultiplyLemmas

variable {α : Type} [Field α]

/-- The innermost loop of `MultiplyMatrices` adds the whole sum over `k` to
entry `(i, j)` of `result` and leaves the rest of `result` alone. -/
theorem multiply_loop_k {a b r : List (List α)} {m n p : Nat} (ha : IsMatrix a m n)
    (hb : IsMatrix b n p) (hr : IsMatrix r m p) {i j : Nat} (hi : i < m) (hj : j < p) :
    ∃ r', forLoop n (fun k result =>
            match read result i j, read a i k, read b k j with
            | some r, some x, some y => assign result i j (r + x * y)
            | _, _, _ => none) r = some r' ∧ IsMatrix r' m p ∧
      ∀ i' j', entry r' i' j' =
        if i' = i ∧ j' = j then
          entry r i j + ∑ k ∈ Finset.range n, entry a i k * entry b k j
        else entry r i' j' := by
  apply forLoop_invariant (fun k t => IsMatrix t m p ∧
      ∀ i' j', entry t i' j' =
        if i' = i ∧ j' = j then
          entry r i j + ∑ k' ∈ Finset.range k, entry a i k' * entry b k' j
        else entry r i' j')
  · refine ⟨hr, ?_⟩
    intro i' j'
    split_ifs with h
    · simp [h.1, h.2]
    · rfl
  · intro k hk t ⟨ht, hent⟩
    obtain ⟨t', ht', hm', hent'⟩ := assign_of_isMatrix ht hi hj
      (entry t i j + entry a i k * entry b k j)
    refine ⟨t', ?_, hm', ?_⟩
    · simp only [read_of_isMatrix ht hi hj, read_of_isMatrix ha hi hk,
        read_of_isMatrix hb hk hj]
      exact ht'
    · intro i' j'
      rw [hent' i' j']
      split_ifs with h
      · rw [hent i j, if_pos ⟨rfl, rfl⟩, Finset.sum_range_succ, add_assoc]
      · rw [hent i' j', if_neg h]

/-- The middle loop of `MultiplyMatrices` fills row `i`. -/
theorem multiply_loop_j {a b r : List (List α)} {m n p : Nat} (ha : IsMatrix a m n)
    (hb : IsMatrix b n p) (hr : IsMatrix r m p) {i : Nat} (hi : i < m) :
    ∃ r', forLoop p (fun j result =>
            forLoop n (fun k result =>
              match read result i j, read a i k, read b k j with
              | some r, some x, some y => assign result i j (r + x * y)
              | _, _, _ => none) result) r = some r' ∧ IsMatrix r' m p ∧
      ∀ i' j', entry r' i' j' =
        if i' = i ∧ j' < p then
          entry r i j' + ∑ k ∈ Finset.range n, entry a i k * entry b k j'
        else entry r i' j' := by
  apply forLoop_invariant (fun j t => IsMatrix t m p ∧
      ∀ i' j', entry t i' j' =
        if i' = i ∧ j' < j then
          entry r i j' + ∑ k ∈ Finset.range n, entry a i k * entry b k j'
        else entry r i' j')
  · refine ⟨hr, ?_⟩
    intro i' j'
    simp
  · intro j hj t ⟨ht, hent⟩
    obtain ⟨t', ht', hm', hent'⟩ := multiply_loop_k ha hb ht hi hj
    refine ⟨t', ht', hm', ?_⟩
    intro i' j'
    rw [hent' i' j']
    by_cases h : i' = i ∧ j' = j
    · obtain ⟨rfl, rfl⟩ := h
      rw [if_pos ⟨rfl, rfl⟩, if_pos ⟨rfl, Nat.lt_succ_self _⟩, hent,
        if_neg (by omega)]
    · rw [if_neg h, hent i' j']
      by_cases h' : i' = i ∧ j' < j
      · rw [if_pos h', if_pos ⟨h'.1, by omega⟩]
      · rw [if_neg h', if_neg (by omega)]

/-- The outer loop of `MultiplyMatrices` fills every row. -/
theorem multiply_loop_i {a b r : List (List α)} {m n p : Nat} (ha : IsMatrix a m n)
    (hb : IsMatrix b n p) (hr : IsMatrix r m p) :
    ∃ r', forLoop m (fun i result =>
            forLoop p (fun j result =>
              forLoop n (fun k result =>
                match read result i j, read a i k, read b k j with
                | some r, some x, some y => assign result i j (r + x * y)
                | _, _, _ => none) result) result) r = some r' ∧ IsMatrix r' m p ∧
      ∀ i' j', entry r' i' j' =
        if i' < m ∧ j' < p then
          entry r i' j' + ∑ k ∈ Finset.range n, entry a i' k * entry b k j'
        else entry r i' j' := by
  apply forLoop_invariant (fun i t => IsMatrix t m p ∧
      ∀ i' j', entry t i' j' =
        if i' < i ∧ j' < p then
          entry r i' j' + ∑ k ∈ Finset.range n, entry a i' k * entry b k j'
        else entry r i' j')
  · refine ⟨hr, ?_⟩
    intro i' j'
    simp
  · intro i hi t ⟨ht, hent⟩
    obtain ⟨t', ht', hm', hent'⟩ := multiply_loop_j ha hb ht hi
    refine ⟨t', ht', hm', ?_⟩
    intro i' j'
    rw [hent' i' j']
    by_cases h : i' = i ∧ j' < p
    · obtain ⟨rfl, hj'⟩ := h
      rw [if_pos ⟨rfl, hj'⟩, if_pos ⟨Nat.lt_succ_self _, hj'⟩, hent,
        if_neg (by omega)]
    · rw [if_neg h, hent i' j']
      by_cases h' : i' < i ∧ j' < p
      · rw [if_pos h', if_pos ⟨by omega, h'.2⟩]
      · rw [if_neg h', if_neg (by omega)]

/-- On conformable matrices `MultiplyMatrices` returns the `m × p` matrix of
the sums over `k`. -/
theorem MultiplyMatrices_of_isMatrix {a b : List (List α)} {m n p : Nat} (hm : 0 < m)
    (hn : 0 < n) (ha : IsMatrix a m n) (hb : IsMatrix b n p) :
    ∃ r, MultiplyMatrices a b = .value r ∧ IsMatrix r m p ∧
      ∀ i j, i < m → j < p →
        entry r i j = ∑ k ∈ Finset.range n, entry a i k * entry b k j := by
  obtain ⟨a0, ha0, ha0l⟩ := ha.row hm
  obtain ⟨b0, hb0, hb0l⟩ := hb.row hn
  obtain ⟨r, hr, hrm, hent⟩ := multiply_loop_i ha hb (isMatrix_replicate m p (0 : α))
  refine ⟨r, ?_, hrm, ?_⟩
  · unfold MultiplyMatrices
    rw [ha0]
    dsimp only
    rw [if_neg (by rw [ha0l, hb.1]; simp), hb0]
    dsimp only
    rw [ha.1, hb0l, ha0l, hr]
  · intro i j hi hj
    rw [hent i j, if_pos ⟨hi, hj⟩, entry_replicate_zero, zero_add]

end MultiplyLemmas

/-- C1: for non-empty lists `a`, `b` of equal-length rows (`a` of shape
`m × n`, `b` of shape `n' × p`), `MultiplyMatrices a b` throws the shape error
when the column count `n` of `a` differs from the row count `n'` of `b`, and
otherwise returns the `m × p` matrix whose entry `(i, j)` is the sum over `k`
of `a[i][k] * b[k][j]`; and `MultiplyMatrices [[1,2]] [[3],[4]] = [[11]]`. -/
theorem MultiplyMatrices_spec {α : Type} [Field α] (a b : List (List α))
    (m n n' p : Nat) (hm : 0 < m) (hn' : 0 < n') (ha : IsMatrix a m n)
    (hb : IsMatrix b n' p) :
    (n ≠ n' → MultiplyMatrices a b
        = .invalidArgument "Invalid matrix dimensions for multiplication.") ∧
    (n = n' → ∃ r, MultiplyMatrices a b = .value r ∧ IsMatrix r m p ∧
        ∀ i j, i < m → j < p →
          entry r i j = ∑ k ∈ Finset.range n, entry a i k * entry b k j) ∧
    MultiplyMatrices ([[1, 2]] : List (List α)) [[3], [4]] = .value [[11]] := by
  refine ⟨?_, ?_, ?_⟩
  · intro hne
    obtain ⟨a0, ha0, ha0l⟩ := ha.row hm
    unfold MultiplyMatrices
    rw [ha0]
    dsimp only
    rw [if_pos (by rw [ha0l, hb.1]; exact hne)]
  · intro he
    subst he
    exact MultiplyMatrices_of_isMatrix hm hn' ha hb
  · simp [MultiplyMatrices, forLoop, read, assign, List.range_succ]
    norm_num

/-- C1, at `a = [[1, 2]]`, `b = [[3], [4]]` over the rationals. -/
theorem MultiplyMatrices_spec_witness :
    IsMatrix ([[1, 2]] : List (List ℚ)) 1 2 ∧ IsMatrix ([[3], [4]] : List (List ℚ)) 2 1 ∧
    ∃ r, MultiplyMatrices ([[1, 2]] : List (List ℚ)) [[3], [4]] = .value r ∧
      IsMatrix r 1 1 ∧
      ∀ i j, i < 1 → j < 1 →
        entry r i j = ∑ k ∈ Finset.range 2,
          entry ([[1, 2]] : List (List ℚ)) i k * entry ([[3], [4]] : List (List ℚ)) k j :=
  ⟨by simp [IsMatrix], by simp [IsMatrix],
    (MultiplyMatrices_spec ([[1, 2]] : List (List ℚ)) [[3], [4]] 1 2 2 1 (by decide)
      (by decide) (by simp [IsMatrix]) (by simp [IsMatrix])).2.1 rfl⟩

/-- C2, amended: in exact arithmetic (over any field) matrix multiplication
is associative. For `A` of shape `m × n`, `B` of shape `n × p` and `C` of
shape `p × q` with `m, n, p ≥ 1` (and any `q`), all four calls return, and
`MultiplyMatrices (MultiplyMatrices A B) C` and
`MultiplyMatrices A (MultiplyMatrices B C)` return the same matrix, entry for
entry. -/
theorem MultiplyMatrices_assoc {α : Type} [Field α] (A B C : List (List α))
    (m n p q : Nat) (hm : 0 < m) (hn : 0 < n) (hp : 0 < p) (hA : IsMatrix A m n)
    (hB : IsMatrix B n p) (hC : IsMatrix C p q) :
    ∃ ab bc abc, MultiplyMatrices A B = .value ab ∧ MultiplyMatrices B C = .value bc ∧
      MultiplyMatrices ab C = .value abc ∧ MultiplyMatrices A bc = .value abc := by
  obtain ⟨ab, hab, habm, habe⟩ := MultiplyMatrices_of_isMatrix hm hn hA hB
  obtain ⟨bc, hbc, hbcm, hbce⟩ := MultiplyMatrices_of_isMatrix hn hp hB hC
  obtain ⟨l, hl, hlm, hle⟩ := MultiplyMatrices_of_isMatrix hm hp habm hC
  obtain ⟨r, hr, hrm, hre⟩ := MultiplyMatrices_of_isMatrix hm hn hA hbcm
  have hlr : r = l := by
    apply IsMatrix.ext hrm hlm
    intro i j hi hj
    rw [hre i j hi hj, hle i j hi hj]
    calc ∑ k ∈ Finset.range n, entry A i k * entry bc k j
        = ∑ k ∈ Finset.range n, ∑ x ∈ Finset.range p,
            entry A i k * entry B k x * entry C x j := by
          apply Finset.sum_congr rfl
          intro k hk
          rw [hbce k j (Finset.mem_range.mp hk) hj, Finset.mul_sum]
          apply Finset.sum_congr rfl
          intro x _
          rw [mul_assoc]
      _ = ∑ x ∈ Finset.range p, ∑ k ∈ Finset.range n,
            entry A i k * entry B k x * entry C x j := Finset.sum_comm
      _ = ∑ x ∈ Finset.range p, entry ab i x * entry C x j := by
          apply Finset.sum_congr rfl
          intro x hx
          rw [habe i x hi (Finset.mem_range.mp hx), Finset.sum_mul]
  exact ⟨ab, bc, l, hab, hbc, hl, hlr ▸ hr⟩

/-- C2 amended, at `A = [[1, 2]]`, `B = [[3], [4]]`, `C = [[5, 6]]` over the rationals. -/
theorem MultiplyMatrices_assoc_witness :
    IsMatrix ([[1, 2]] : List (List ℚ)) 1 2 ∧ IsMatrix ([[3], [4]] : List (List ℚ)) 2 1 ∧
    IsMatrix ([[5, 6]] : List (List ℚ)) 1 2 ∧
    ∃ ab bc abc, MultiplyMatrices ([[1, 2]] : List (List ℚ)) [[3], [4]] = .value ab ∧
      MultiplyMatrices ([[3], [4]] : List (List ℚ)) [[5, 6]] = .value bc ∧
      MultiplyMatrices ab [[5, 6]] = .value abc ∧
      MultiplyMatrices ([[1, 2]] : List (List ℚ)) bc = .value abc :=
  ⟨by simp [IsMatrix], by simp [IsMatrix], by simp [IsMatrix],
    MultiplyMatrices_assoc ([[1, 2]] : List (List ℚ)) [[3], [4]] [[5, 6]] 1 2 1 2
      (by decide) (by decide) (by decide) (by simp [IsMatrix]) (by simp [IsMatrix])
      (by simp [IsMatrix])⟩

/-! ## AddMatrices -/

section AddLemmas

variable {α : Type} [Field α]

/-- The inner loop of `AddMatrices` on row `i` of two `m × n` matrices. -/
theorem add_loop_j {a b r : List (List α)} {m n : Nat} (ha : IsMatrix a m n)
    (hb : IsMatrix b m n) (hr : IsMatrix r m n) {i : Nat} (hi : i < m) :
    ∃ r', forLoop n (fun j result =>
            match read a i j, read b i j with
            | some x, some y => assign result i j (x + y)
            | _, _ => none) r = some r' ∧ IsMatrix r' m n ∧
      ∀ i' j', entry r' i' j' =
        if i' = i ∧ j' < n then entry a i j' + entry b i j' else entry r i' j' := by
  apply forLoop_invariant (fun j t => IsMatrix t m n ∧
      ∀ i' j', entry t i' j' =
        if i' = i ∧ j' < j then entry a i j' + entry b i j' else entry r i' j')
  · refine ⟨hr, ?_⟩
    intro i' j'
    simp
  · intro j hj t ⟨ht, hent⟩
    obtain ⟨t', ht', hm', hent'⟩ := assign_of_isMatrix ht hi hj
      (entry a i j + entry b i j)
    refine ⟨t', ?_, hm', ?_⟩
    · simp only [read_of_isMatrix ha hi hj, read_of_isMatrix hb hi hj]
      exact ht'
    · intro i' j'
      rw [hent' i' j']
      by_cases h : i' = i ∧ j' = j
      · obtain ⟨rfl, rfl⟩ := h
        rw [if_pos ⟨rfl, rfl⟩, if_pos ⟨rfl, Nat.lt_succ_self _⟩]
      · rw [if_neg h, hent i' j']
        by_cases h' : i' = i ∧ j' < j
        · rw [if_pos h', if_pos ⟨h'.1, by omega⟩]
        · rw [if_neg h', if_neg (by omega)]

/-- The outer loop of `AddMatrices` on two `m × n` matrices. -/
theorem add_loop_i {a b r : List (List α)} {m n : Nat} (ha : IsMatrix a m n)
    (hb : IsMatrix b m n) (hr : IsMatrix r m n) :
    ∃ r', forLoop m (fun i result =>
            match a[i]? with
            | none => none
            | some ai =>
              forLoop ai.length (fun j result =>
                match read a i j, read b i j with
                | some x, some y => assign result i j (x + y)
                | _, _ => none) result) r = some r' ∧ IsMatrix r' m n ∧
      ∀ i' j', entry r' i' j' =
        if i' < m ∧ j' < n then entry a i' j' + entry b i' j' else entry r i' j' := by
  apply forLoop_invariant (fun i t => IsMatrix t m n ∧
      ∀ i' j', entry t i' j' =
        if i' < i ∧ j' < n then entry a i' j' + entry b i' j' else entry r i' j')
  · refine ⟨hr, ?_⟩
    intro i' j'
    simp
  · intro i hi t ⟨ht, hent⟩
    obtain ⟨ai, hai, hail⟩ := ha.row hi
    obtain ⟨t', ht', hm', hent'⟩ := add_loop_j ha hb ht hi
    refine ⟨t', ?_, hm', ?_⟩
    · rw [hai]
      show forLoop ai.length _ t = some t'
      rw [hail]
      exact ht'
    · intro i' j'
      rw [hent' i' j']
      by_cases h : i' = i ∧ j' < n
      · obtain ⟨rfl, hj'⟩ := h
        rw [if_pos ⟨rfl, hj'⟩, if_pos ⟨Nat.lt_succ_self _, hj'⟩]
      · rw [if_neg h, hent i' j']
        by_cases h' : i' < i ∧ j' < n
        · rw [if_pos h', if_pos ⟨by omega, h'.2⟩]
        · rw [if_neg h', if_neg (by omega)]

/-- On two matrices of one shape `AddMatrices` returns the matrix of the
entrywise sums. -/
theorem AddMatrices_of_isMatrix {a b : List (List α)} {m n : Nat} (hm : 0 < m)
    (ha : IsMatrix a m n) (hb : IsMatrix b m n) :
    ∃ r, AddMatrices a b = .value r ∧ IsMatrix r m n ∧
      ∀ i j, i < m → j < n → entry r i j = entry a i j + entry b i j := by
  obtain ⟨a0, ha0, ha0l⟩ := ha.row hm
  obtain ⟨b0, hb0, hb0l⟩ := hb.row hm
  obtain ⟨r, hr, hrm, hent⟩ := add_loop_i ha hb (isMatrix_replicate m n (0 : α))
  refine ⟨r, ?_, hrm, ?_⟩
  · unfold AddMatrices
    rw [if_neg (by rw [ha.1, hb.1]; simp), ha0, hb0]
    dsimp only
    rw [if_neg (by rw [ha0l, hb0l]; simp)]
    rw [ha.1, ha0l, hr]
  · intro i j hi hj
    rw [hent i j, if_pos ⟨hi, hj⟩]

/-- The guard of `AddMatrices`: different row counts. -/
theorem AddMatrices_of_length_ne {a b : List (List α)} (h : a.length ≠ b.length) :
    AddMatrices a b = .invalidArgument "Matrices must have the same dimensions." := by
  unfold AddMatrices
  rw [if_pos h]

/-- The guard of `AddMatrices`: first rows of different lengths. -/
theorem AddMatrices_of_row_zero_ne {a b : List (List α)} {a0 b0 : List α}
    (ha : a[0]? = some a0) (hb : b[0]? = some b0) (h : a0.length ≠ b0.length) :
    AddMatrices a b = .invalidArgument "Matrices must have the same dimensions." := by
  unfold AddMatrices
  by_cases hl : a.length ≠ b.length
  · rw [if_pos hl]
  · rw [if_neg hl, ha, hb]
    dsimp only
    rw [if_pos h]

/-- On rectangular operands with a row each, the guard of `AddMatrices`
throws exactly when the shapes differ. -/
theorem AddMatrices_throws_iff {a b : List (List α)} {m n m' n' : Nat} (hm : 0 < m)
    (hm' : 0 < m') (ha : IsMatrix a m n) (hb : IsMatrix b m' n') :
    AddMatrices a b = .invalidArgument "Matrices must have the same dimensions."
      ↔ (m ≠ m' ∨ n ≠ n') := by
  obtain ⟨a0, ha0, ha0l⟩ := ha.row hm
  obtain ⟨b0, hb0, hb0l⟩ := hb.row hm'
  constructor
  · intro h
    by_contra hc
    have hmm : m = m' := by omega
    have hnn : n = n' := by omega
    subst hmm
    subst hnn
    obtain ⟨r, hr, _⟩ := AddMatrices_of_isMatrix hm ha hb
    rw [hr] at h
    exact Outcome.noConfusion h
  · rintro (h | h)
    · exact AddMatrices_of_length_ne (by rw [ha.1, hb.1]; exact h)
    · exact AddMatrices_of_row_zero_ne ha0 hb0 (by rw [ha0l, hb0l]; exact h)

end AddLemmas

/-- C3: for rectangular `a` (`m × n`) and `b` (`m' × n'`) with at least one
row each, `AddMatrices a b` throws the shape error exactly when the row
counts differ or the column counts differ, and otherwise returns a matrix of
the same shape whose entry `(i, j)` is `a[i][j] + b[i][j]`. -/
theorem AddMatrices_spec {α : Type} [Field α] (a b : List (List α)) (m n m' n' : Nat)
    (hm : 0 < m) (hm' : 0 < m') (ha : IsMatrix a m n) (hb : IsMatrix b m' n') :
    (AddMatrices a b = .invalidArgument "Matrices must have the same dimensions."
      ↔ (m ≠ m' ∨ n ≠ n')) ∧
    (¬ (m ≠ m' ∨ n ≠ n') → ∃ r, AddMatrices a b = .value r ∧ IsMatrix r m n ∧
      ∀ i j, i < m → j < n → entry r i j = entry a i j + entry b i j) := by
  refine ⟨AddMatrices_throws_iff hm hm' ha hb, ?_⟩
  intro h
  have hmm : m = m' := by omega
  have hnn : n = n' := by omega
  subst hmm
  subst hnn
  exact AddMatrices_of_isMatrix hm ha hb

/-- C3, at `a = [[1, 2], [3, 4]]`, `b = [[10, 20], [30, 40]]` over the rationals. -/
theorem AddMatrices_spec_witness :
    IsMatrix ([[1, 2], [3, 4]] : List (List ℚ)) 2 2 ∧
    IsMatrix ([[10, 20], [30, 40]] : List (List ℚ)) 2 2 ∧
    ∃ r, AddMatrices ([[1, 2], [3, 4]] : List (List ℚ)) [[10, 20], [30, 40]] = .value r ∧
      IsMatrix r 2 2 ∧
      ∀ i j, i < 2 → j < 2 →
        entry r i j = entry ([[1, 2], [3, 4]] : List (List ℚ)) i j
          + entry ([[10, 20], [30, 40]] : List (List ℚ)) i j :=
  ⟨by simp [IsMatrix], by simp [IsMatrix],
    (AddMatrices_spec ([[1, 2], [3, 4]] : List (List ℚ)) [[10, 20], [30, 40]] 2 2 2 2
      (by decide) (by decide) (by simp [IsMatrix]) (by simp [IsMatrix])).2 (by decide)⟩

/-- C4 as stated fails: with `a = [[1, 2], [3]]` and `b = [[10, 20], [30, 40]]`
row 1 of `a` has length 1 and row 1 of `b` has length 2, yet `AddMatrices a b`
throws nothing and returns `[[11, 22], [33, 0]]`: the entry `40` of `b` is
dropped. -/
theorem AddMatrices_ragged_returns :
    (∃ (i : Nat) (ra rb : List ℚ), ([[1, 2], [3]] : List (List ℚ))[i]? = some ra ∧
      ([[10, 20], [30, 40]] : List (List ℚ))[i]? = some rb ∧ ra.length ≠ rb.length) ∧
    AddMatrices ([[1, 2], [3]] : List (List ℚ)) [[10, 20], [30, 40]]
      = .value [[11, 22], [33, 0]] := by
  refine ⟨⟨1, [3], [30, 40], rfl, rfl, by decide⟩, ?_⟩
  norm_num [AddMatrices, forLoop, read, assign, List.range_succ]
  rfl

/-- C4, amended: `AddMatrices` compares the row counts and the lengths of the
first rows. For all lists of rows `a` and `b` it throws the shape error when
the row counts differ, and when row 0 of `a` and row 0 of `b` differ in
length. On rectangular operands with a row each, whenever it returns a
result, every row of `a` is as long as the corresponding row of `b`, the
result has the shape of `a`, and each entry is `a[i][j] + b[i][j]`. -/
theorem AddMatrices_checks_first_rows {α : Type} [Field α] (a b : List (List α)) :
    (a.length ≠ b.length →
      AddMatrices a b = .invalidArgument "Matrices must have the same dimensions.") ∧
    (∀ a0 b0, a[0]? = some a0 → b[0]? = some b0 → a0.length ≠ b0.length →
      AddMatrices a b = .invalidArgument "Matrices must have the same dimensions.") ∧
    (∀ m n m' n' r, 0 < m → 0 < m' → IsMatrix a m n → IsMatrix b m' n' →
      AddMatrices a b = .value r →
        (∀ (i : Nat) (ra rb : List α), a[i]? = some ra → b[i]? = some rb → ra.length = rb.length) ∧
        IsMatrix r m n ∧
        ∀ i j, i < m → j < n → entry r i j = entry a i j + entry b i j) := by
  refine ⟨AddMatrices_of_length_ne, fun a0 b0 => AddMatrices_of_row_zero_ne, ?_⟩
  intro m n m' n' r hm hm' ha hb hr
  have hshape : ¬ (m ≠ m' ∨ n ≠ n') := by
    intro hne
    rw [(AddMatrices_throws_iff hm hm' ha hb).mpr hne] at hr
    exact Outcome.noConfusion hr
  have hmm : m = m' := by omega
  have hnn : n = n' := by omega
  subst hmm
  subst hnn
  obtain ⟨r', hr', hrm, hent⟩ := AddMatrices_of_isMatrix hm ha hb
  rw [hr'] at hr
  cases hr
  refine ⟨?_, hrm, hent⟩
  intro i ra rb hra hrb
  rw [ha.2 ra (List.getElem?_mem hra), hb.2 rb (List.getElem?_mem hrb)]

/-- C4 amended, at `a = [[1, 2], [3, 4]]`, `b = [[10, 20], [30, 40]]` over the
rationals, where the call returns `[[11, 22], [33, 44]]`. -/
theorem AddMatrices_checks_first_rows_witness :
    AddMatrices ([[1, 2], [3, 4]] : List (List ℚ)) [[10, 20], [30, 40]]
      = .value [[11, 22], [33, 44]] ∧
    (∀ (i : Nat) (ra rb : List ℚ), ([[1, 2], [3, 4]] : List (List ℚ))[i]? = some ra →
      ([[10, 20], [30, 40]] : List (List ℚ))[i]? = some rb → ra.length = rb.length) ∧
    IsMatrix ([[11, 22], [33, 44]] : List (List ℚ)) 2 2 ∧
    ∀ i j, i < 2 → j < 2 →
      entry ([[11, 22], [33, 44]] : List (List ℚ)) i j
        = entry ([[1, 2], [3, 4]] : List (List ℚ)) i j
          + entry ([[10, 20], [30, 40]] : List (List ℚ)) i j :=
  have h : AddMatrices ([[1, 2], [3, 4]] : List (List ℚ)) [[10, 20], [30, 40]]
      = .value [[11, 22], [33, 44]] := by
    norm_num [AddMatrices, forLoop, read, assign, List.range_succ]
    rfl
  ⟨h, (AddMatrices_checks_first_rows ([[1, 2], [3, 4]] : List (List ℚ))
      [[10, 20], [30, 40]]).2.2 2 2 2 2 _ (by decide) (by decide) (by simp [IsMatrix])
      (by simp [IsMatrix]) h⟩

/-- C6 as stated fails at `n = 0`: `Factorial(0)` returns `1`, while
`Factorial(0 - 1)` throws for every fuel, so there is no value `w` of
`Factorial(0 - 1)` with `Factorial(0) == 0 * w`. -/
theorem Factorial_zero_has_no_predecessor :
    Factorial 1 0 = .value 1 ∧
    (∀ fuel : Nat, Factorial fuel (0 - 1)
      = .invalidArgument "Factorial of negative number.") ∧
    ¬ ∃ (fuel : Nat) (w : Int), Factorial fuel (0 - 1) = .value w ∧
        Factorial fuel 0 = .value (wrap64 (0 * w)) := by
  refine ⟨by decide, fun fuel => Factorial_of_neg fuel (by norm_num), ?_⟩
  rintro ⟨fuel, w, hw, -⟩
  rw [Factorial_of_neg fuel (by norm_num)] at hw
  exact Outcome.noConfusion hw

/-- C6, amended: for every `n` with `1 ≤ n < INT_MAX`, given more fuel than
`n`, `Factorial(n - 1)` returns some `w` and `Factorial(n)` returns `n * w`
reduced to 64 bits; `Factorial(0)` returns `1`; `Factorial(-1)` throws. -/
theorem Factorial_recurrence (n : Int) (h₁ : 1 ≤ n) (h₂ : n < 2147483647) (fuel : Nat)
    (hf : n < (fuel : Int)) :
    (∃ w, Factorial fuel (n - 1) = .value w ∧
      Factorial fuel n = .value (wrap64 (n * w))) ∧
    Factorial fuel 0 = .value 1 ∧
    Factorial fuel (-1) = .invalidArgument "Factorial of negative number." := by
  obtain ⟨k, rfl⟩ : ∃ k : Nat, n = ((k + 1 : Nat) : Int) := ⟨(n - 1).toNat, by omega⟩
  refine ⟨⟨wrap64 ((k.factorial : Nat) : Int), ?_, ?_⟩, ?_, Factorial_of_neg fuel (by norm_num)⟩
  · have h := Factorial_eq k (by omega) fuel (by omega)
    have hk : (((k + 1 : Nat) : Int) - 1) = (k : Int) := by push_cast; ring
    rw [hk]
    exact h
  · rw [Factorial_eq (k + 1) h₂ fuel (by omega), mul_comm, wrap64_mul_left,
      Nat.factorial_succ]
    push_cast
    ring_nf
  · have h := Factorial_eq 0 (by norm_num) fuel (by omega)
    simpa [wrap64] using h

/-- C6 amended, at `n = 5` with fuel `6`: `5! = 5 * 4!`. -/
theorem Factorial_recurrence_witness :
    (∃ w, Factorial 6 (5 - 1) = .value w ∧ Factorial 6 5 = .value (wrap64 (5 * w))) ∧
    Factorial 6 0 = .value 1 ∧
    Factorial 6 (-1) = .invalidArgument "Factorial of negative number." :=
  Factorial_recurrence 5 (by decide) (by decide) 6 (by decide)

/-- C7: for all integers `a` and `b` (so for all 32-bit ones), `Divide a b`
throws exactly when `b = 0`, and otherwise returns the quotient `a / b` of the
field, for which `(a / b) * b = a`. -/
theorem Divide_spec {α : Type} [Field α] [CharZero α] (a b : Int) :
    ((Divide a b : Outcome α) = .invalidArgument "Division by zero." ↔ b = 0) ∧
    (b ≠ 0 → (Divide a b : Outcome α) = .value ((a : α) / (b : α)) ∧
      ((a : α) / (b : α)) * (b : α) = (a : α)) := by
  constructor
  · constructor
    · intro h
      by_contra hb
      simp [Divide, hb] at h
    · intro hb
      simp [Divide, hb]
  · intro hb
    have hb' : (b : α) ≠ 0 := Int.cast_ne_zero.mpr hb
    exact ⟨by simp [Divide, hb], div_mul_cancel₀ _ hb'⟩

/-- C7, at `a = 7`, `b = 2` over the rationals: the result is `7 / 2`, not
the truncated quotient `3`. -/
theorem Divide_spec_witness :
    (2 : Int) ≠ 0 ∧ (Divide 7 2 : Outcome ℚ) = .value (((7 : Int) : ℚ) / ((2 : Int) : ℚ)) ∧
    (((7 : Int) : ℚ) / ((2 : Int) : ℚ)) * ((2 : Int) : ℚ) = ((7 : Int) : ℚ) ∧
    (((7 : Int) : ℚ) / ((2 : Int) : ℚ)) ≠ ((Int.tdiv 7 2 : Int) : ℚ) :=
  ⟨by decide, ((Divide_spec 7 2).2 (by decide)).1, ((Divide_spec 7 2).2 (by decide)).2,
    by norm_num [Int.tdiv]⟩

/-! ## Atomic counters -/

theorem wrap32_add_left (x y : Int) : wrap32 (wrap32 x + y) = wrap32 (x + y) := by
  unfold wrap32; omega

theorem wrap32_mul_two (x : Int) : wrap32 (wrap32 x * 2) = wrap32 (x * 2) := by
  unfold wrap32; omega

/-- C8: for every cell value `c`, `AtomicDivide(cell, 0)` throws at its
first step, whatever the cell holds, and leaves the cell holding `c`, also
when run to any length; and in general a step of `AtomicDivide` that ends in
a throw starts at the entry of the call (the guard, before `target.load()`
and before the loop) or after the throw, and does not change the cell: no
call throws once it has read or modified the cell. No step leads back to the
entry, so the guard is evaluated once per call. -/
theorem AtomicDivide_zero (c : Int) :
    (∀ spurious, AtomicDivide 0 spurious (.entry, c) = (.threw "Division by zero.", c)) ∧
    (∀ flags : List Bool, flags ≠ [] →
      runAlone (AtomicDivide 0) flags (.entry, c) = (.threw "Division by zero.", c)) ∧
    (∀ (value : Int) (spurious : Bool) (call : Call) (target : Int) (what : String),
      (AtomicDivide value spurious (call, target)).1 = .threw what →
        (call = .entry ∨ call = .threw what) ∧
        (AtomicDivide value spurious (call, target)).2 = target) ∧
    (∀ (value : Int) (spurious : Bool) (call : Call) (target : Int),
      call ≠ .entry → (AtomicDivide value spurious (call, target)).1 ≠ .entry) := by
  refine ⟨fun _ => rfl, ?_, ?_, ?_⟩
  · intro flags hne
    cases flags with
    | nil => exact absurd rfl hne
    | cons f fs =>
      have hstay : ∀ l : List Bool,
          runAlone (AtomicDivide 0) l (.threw "Division by zero.", c)
            = (.threw "Division by zero.", c) := by
        intro l
        induction l with
        | nil => rfl
        | cons g gs ih => exact ih
      exact hstay fs
  · intro value spurious call target what h
    cases call with
    | entry =>
      refine ⟨Or.inl rfl, ?_⟩
      unfold AtomicDivide
      split_ifs <;> rfl
    | checked => simp [AtomicDivide] at h
    | loop expected =>
      simp only [AtomicDivide] at h
      split_ifs at h
    | returned => simp [AtomicDivide] at h
    | threw w =>
      simp only [AtomicDivide] at h
      exact ⟨Or.inr h, rfl⟩
    | trapped => simp [AtomicDivide] at h
  · intro value spurious call target hne
    cases call with
    | entry => exact absurd rfl hne
    | checked => simp [AtomicDivide]
    | loop expected =>
      simp only [AtomicDivide]
      split_ifs <;> simp
    | returned => simp [AtomicDivide]
    | threw w => simp [AtomicDivide]
    | trapped => simp [AtomicDivide]

/-- C8, at `c = 5`: the call run alone for one or three steps. -/
theorem AtomicDivide_zero_witness :
    runAlone (AtomicDivide 0) [false] (.entry, 5) = (.threw "Division by zero.", 5) ∧
    runAlone (AtomicDivide 0) [true, false, true] (.entry, 5)
      = (.threw "Division by zero.", 5) :=
  ⟨(AtomicDivide_zero 5).2.1 [false] (by decide),
    (AtomicDivide_zero 5).2.1 [true, false, true] (by decide)⟩

theorem set_of_getElem? {β : Type} (l : List β) (t : Nat) (c : β) (h : l[t]? = some c) :
    l.set t c = l := by
  induction l generalizing t with
  | nil => rfl
  | cons x xs ih =>
    cases t with
    | zero =>
      simp only [List.getElem?_cons_zero, Option.some.injEq] at h
      rw [List.set_cons_zero, h]
    | succ t =>
      rw [List.getElem?_cons_succ] at h
      rw [List.set_cons_succ, ih t h]

theorem count_returned_set_of_ne (l : List Call) (t : Nat) (ht : t < l.length) (c : Call)
    (h₁ : l[t] ≠ .returned) (h₂ : c ≠ .returned) :
    (l.set t c).count .returned = l.count .returned := by
  rw [List.count_set _ _ _ _ ht]
  simp [h₁, h₂]

theorem count_returned_set_returned (l : List Call) (t : Nat) (ht : t < l.length)
    (h₁ : l[t] ≠ .returned) :
    (l.set t .returned).count .returned = l.count .returned + 1 := by
  rw [List.count_set _ _ _ _ ht]
  simp [h₁]

/-- The invariant of the doubling threads: the cell holds two to the number
of calls that have returned, reduced to 32 bits. -/
theorem stepThread_multiply_invariant (s : Shared) (t : Nat) (spurious : Bool)
    (h : s.target = wrap32 (2 ^ s.calls.count .returned)) :
    (stepThread (AtomicMultiply 2) s t spurious).calls.length = s.calls.length ∧
    (stepThread (AtomicMultiply 2) s t spurious).target
      = wrap32 (2 ^ (stepThread (AtomicMultiply 2) s t spurious).calls.count .returned) := by
  unfold stepThread
  cases hc : s.calls[t]? with
  | none => exact ⟨rfl, h⟩
  | some c =>
    obtain ⟨ht, hget⟩ := List.getElem?_eq_some.mp hc
    refine ⟨by simp, ?_⟩
    cases c with
    | entry =>
      have hop : AtomicMultiply 2 spurious (.entry, s.target) = (.loop s.target, s.target) := rfl
      simp only [hop]
      rw [count_returned_set_of_ne _ _ ht _ (by rw [hget]; simp) (by simp)]
      exact h
    | checked =>
      have hop : AtomicMultiply 2 spurious (.checked, s.target) = (.checked, s.target) := rfl
      simp only [hop]
      rw [count_returned_set_of_ne _ _ ht _ (by rw [hget]; simp) (by simp)]
      exact h
    | loop expected =>
      by_cases hcas : s.target = expected ∧ spurious = false
      · have hop : AtomicMultiply 2 spurious (.loop expected, s.target)
            = (.returned, wrap32 (expected * 2)) := by
          simp only [AtomicMultiply, if_pos hcas]
        simp only [hop]
        rw [count_returned_set_returned _ _ ht (by rw [hget]; simp), ← hcas.1, h,
          wrap32_mul_two, pow_succ]
      · have hop : AtomicMultiply 2 spurious (.loop expected, s.target)
            = (.loop s.target, s.target) := by
          simp only [AtomicMultiply, if_neg hcas]
        simp only [hop]
        rw [count_returned_set_of_ne _ _ ht _ (by rw [hget]; simp) (by simp)]
        exact h
    | returned =>
      have hop : AtomicMultiply 2 spurious (.returned, s.target) = (.returned, s.target) := rfl
      simp only [hop]
      rw [set_of_getElem? _ _ _ hc]
      exact h
    | threw w =>
      have hop : AtomicMultiply 2 spurious (.threw w, s.target) = (.threw w, s.target) := rfl
      simp only [hop]
      rw [count_returned_set_of_ne _ _ ht _ (by rw [hget]; simp) (by simp)]
      exact h
    | trapped =>
      have hop : AtomicMultiply 2 spurious (.trapped, s.target) = (.trapped, s.target) := rfl
      simp only [hop]
      rw [count_returned_set_of_ne _ _ ht _ (by rw [hget]; simp) (by simp)]
      exact h

/-- The invariant holds along every interleaving. -/
theorem interleave_multiply_invariant (schedule : List (Nat × Bool)) :
    ∀ s : Shared, s.target = wrap32 (2 ^ s.calls.count .returned) →
      (interleave (AtomicMultiply 2) schedule s).calls.length = s.calls.length ∧
      (interleave (AtomicMultiply 2) schedule s).target
        = wrap32 (2 ^ (interleave (AtomicMultiply 2) schedule s).calls.count .returned) := by
  induction schedule with
  | nil => intro s h; exact ⟨rfl, h⟩
  | cons e es ih =>
    intro s h
    obtain ⟨hl, ht⟩ := stepThread_multiply_invariant s e.1 e.2 h
    obtain ⟨hl', ht'⟩ := ih _ ht
    exact ⟨hl'.trans hl, ht'⟩

/-- C9: for every `N` and every interleaving (with any spurious failures of
`compare_exchange_weak`) of `N` threads that each call
`AtomicMultiply(cell, 2)` once on a cell holding `1`, if all calls have
returned then the cell holds `2 ^ N` reduced to 32 bits. -/
theorem AtomicMultiply_no_lost_update (N : Nat) (schedule : List (Nat × Bool))
    (hdone : ∀ c ∈ (interleave (AtomicMultiply 2) schedule
      ⟨1, List.replicate N .entry⟩).calls, c = .returned) :
    (interleave (AtomicMultiply 2) schedule ⟨1, List.replicate N .entry⟩).target
      = wrap32 (2 ^ N) := by
  have hinit : (⟨1, List.replicate N .entry⟩ : Shared).target
      = wrap32 (2 ^ (⟨1, List.replicate N .entry⟩ : Shared).calls.count .returned) := by
    have : List.count Call.returned (List.replicate N Call.entry) = 0 := by
      rw [List.count_eq_zero]
      intro hmem
      exact Call.noConfusion (List.eq_of_mem_replicate hmem)
    simp only [this]
    decide
  obtain ⟨hl, ht⟩ := interleave_multiply_invariant schedule _ hinit
  have hcount : (interleave (AtomicMultiply 2) schedule
      ⟨1, List.replicate N .entry⟩).calls.count .returned = N := by
    rw [List.count_eq_length.mpr (fun c hc => (hdone c hc).symm), hl]
    simp
  rw [ht, hcount]

/-- C9, at `N = 2`: thread 1 loads, thread 0 loads and multiplies, the
exchange of thread 1 fails and reloads, fails once more spuriously, then
succeeds; the cell ends at `4`. -/
theorem AtomicMultiply_no_lost_update_witness :
    (interleave (AtomicMultiply 2)
        [(1, false), (0, false), (0, false), (1, false), (1, true), (1, false)]
        ⟨1, List.replicate 2 .entry⟩).calls = [.returned, .returned] ∧
    (interleave (AtomicMultiply 2)
        [(1, false), (0, false), (0, false), (1, false), (1, true), (1, false)]
        ⟨1, List.replicate 2 .entry⟩).target = wrap32 (2 ^ 2) :=
  ⟨by decide, AtomicMultiply_no_lost_update 2
    [(1, false), (0, false), (0, false), (1, false), (1, true), (1, false)] (by decide)⟩

theorem sum_set_pred (l : List Nat) (t k : Nat) (h : l[t]? = some (k + 1)) :
    (l.set t k).sum + 1 = l.sum := by
  induction l generalizing t with
  | nil => simp at h
  | cons x xs ih =>
    cases t with
    | zero =>
      simp only [List.getElem?_cons_zero, Option.some.injEq] at h
      rw [List.set_cons_zero, List.sum_cons, List.sum_cons, h]
      omega
    | succ t =>
      rw [List.getElem?_cons_succ] at h
      rw [List.set_cons_succ, List.sum_cons, List.sum_cons, ← ih t h]
      omega

/-- The invariant of the adding threads: the cell holds `total` minus the
number of calls still to be made, reduced to 32 bits. -/
theorem stepAdder_invariant (total : Int) (s : Int × List Nat) (t : Nat)
    (h : s.1 = wrap32 (total - (s.2.sum : Nat))) :
    (stepAdder 1 s t).1 = wrap32 (total - ((stepAdder 1 s t).2.sum : Nat)) := by
  unfold stepAdder
  cases hc : s.2[t]? with
  | none => exact h
  | some k =>
    cases k with
    | zero => exact h
    | succ k =>
      have hsum := sum_set_pred s.2 t k hc
      show wrap32 (s.1 + 1) = wrap32 (total - ((s.2.set t k).sum : Nat))
      rw [h, wrap32_add_left, ← hsum]
      congr 1
      push_cast
      ring

theorem interleaveAdders_invariant (total : Int) (schedule : List Nat) :
    ∀ s : Int × List Nat, s.1 = wrap32 (total - (s.2.sum : Nat)) →
      (interleaveAdders 1 schedule s).1
        = wrap32 (total - ((interleaveAdders 1 schedule s).2.sum : Nat)) := by
  induction schedule with
  | nil => intro s h; exact h
  | cons t ts ih =>
    intro s h
    exact ih _ (stepAdder_invariant total s t h)

/-- When every thread has made all its calls, the cell holds `N * M` reduced
to 32 bits. -/
theorem interleaveAdders_total (N M : Nat) (schedule : List Nat)
    (hdone : ∀ k ∈ (interleaveAdders 1 schedule (0, List.replicate N M)).2, k = 0) :
    (interleaveAdders 1 schedule (0, List.replicate N M)).1
      = wrap32 ((N : Int) * (M : Int)) := by
  have hinit : ((0 : Int), List.replicate N M).1
      = wrap32 ((N : Int) * (M : Int) - (((0 : Int), List.replicate N M).2.sum : Nat)) := by
    show (0 : Int) = wrap32 ((N : Int) * (M : Int) - ((List.replicate N M).sum : Nat))
    rw [List.sum_replicate]
    simp [wrap32]
  have h := interleaveAdders_invariant _ schedule _ hinit
  rw [List.sum_eq_zero hdone] at h
  simpa using h

/-- One thread that makes its `k` calls in a row has none left. -/
theorem interleaveAdders_alone (k : Nat) :
    ∀ c : Int, (interleaveAdders 1 (List.replicate k 0) (c, [k])).2 = [0] := by
  induction k with
  | zero => intro c; rfl
  | succ k ih =>
    intro c
    rw [List.replicate_succ]
    exact ih (wrap32 (c + 1))

/-- C10 as stated fails: one thread (`N = 1`) calling `AtomicAdd(cell, 1)`
`M = 2147483648` times on a cell holding `0` makes all its calls, and the
cell then holds `-2147483648`, not `N * M = 2147483648`: `fetch_add` on an
`int` wraps. -/
theorem AtomicAdd_counter_wraps :
    (∀ k ∈ (interleaveAdders 1 (List.replicate 2147483648 0)
        (0, List.replicate 1 2147483648)).2, k = 0) ∧
    (interleaveAdders 1 (List.replicate 2147483648 0)
        (0, List.replicate 1 2147483648)).1 = -2147483648 ∧
    (interleaveAdders 1 (List.replicate 2147483648 0)
        (0, List.replicate 1 2147483648)).1 ≠ ((1 : Nat) : Int) * ((2147483648 : Nat) : Int) := by
  have hdone : ∀ k ∈ (interleaveAdders 1 (List.replicate 2147483648 0)
      (0, List.replicate 1 2147483648)).2, k = 0 := by
    intro k hk
    have h := interleaveAdders_alone 2147483648 0
    have h' : (interleaveAdders 1 (List.replicate 2147483648 0)
        (0, List.replicate 1 2147483648)).2 = [0] := h
    rw [h'] at hk
    simpa using hk
  have hval := interleaveAdders_total 1 2147483648 _ hdone
  have hw : wrap32 (((1 : Nat) : Int) * ((2147483648 : Nat) : Int)) = -2147483648 := by
    decide
  rw [hw] at hval
  refine ⟨hdone, hval, ?_⟩
  rw [hval]
  decide

/-- C10, amended: for every `N` and `M` and every interleaving of `N`
threads that each call `AtomicAdd(cell, 1)` exactly `M` times on a cell
holding `0`, when all calls are made the cell holds `N * M` reduced to a
32-bit integer, which is exactly `N * M` whenever `N * M ≤ 2147483647`. -/
theorem AtomicAdd_total (N M : Nat) (schedule : List Nat)
    (hdone : ∀ k ∈ (interleaveAdders 1 schedule (0, List.replicate N M)).2, k = 0) :
    (interleaveAdders 1 schedule (0, List.replicate N M)).1
      = wrap32 ((N : Int) * (M : Int)) ∧
    ((N : Int) * (M : Int) ≤ 2147483647 →
      (interleaveAdders 1 schedule (0, List.replicate N M)).1 = (N : Int) * (M : Int)) := by
  have h := interleaveAdders_total N M schedule hdone
  refine ⟨h, fun hle => ?_⟩
  rw [h]
  have hnn : (0 : Int) ≤ (N : Int) * (M : Int) :=
    mul_nonneg (Int.ofNat_nonneg N) (Int.ofNat_nonneg M)
  exact wrap32_of_int (by linarith) hle

/-- C10 amended, at `N = 2`, `M = 3`, the threads taking turns: the cell
ends at `6`. -/
theorem AtomicAdd_total_witness :
    (interleaveAdders 1 [0, 1, 1, 0, 0, 1] (0, List.replicate 2 3)).2 = [0, 0] ∧
    (interleaveAdders 1 [0, 1, 1, 0, 0, 1] (0, List.replicate 2 3)).1
      = ((2 : Nat) : Int) * ((3 : Nat) : Int) :=
  ⟨by decide, (AtomicAdd_total 2 3 [0, 1, 1, 0, 0, 1] (by decide)).2 (by decide)⟩

/-! ## Cross product -/

section VectorLemmas

variable {α : Type} [Field α]

theorem Vec3.add_def (a b : Vec3 α) : a + b = ⟨a.x + b.x, a.y + b.y, a.z + b.z⟩ := rfl

theorem Vec3_mul_def (a : Vec3 α) (s : α) : a * s = ⟨a.x * s, a.y * s, a.z * s⟩ := rfl

theorem Vec2_mul_def (a : Vec2 α) (s : α) : a * s = ⟨a.x * s, a.y * s⟩ := rfl

end VectorLemmas

/-- C20: for all `Vec3` `a` and `b`, `a.Cross(b)` is orthogonal to `a` and to
`b`, `a.Cross(b) = b.Cross(a) * -1`, and `(1,0,0).Cross((0,1,0)) = (0,0,1)`. -/
theorem Vec3_Cross_spec {α : Type} [Field α] (a b : Vec3 α) :
    a.Dot (a.Cross b) = 0 ∧ b.Dot (a.Cross b) = 0 ∧
    a.Cross b = b.Cross a * (-1 : α) ∧
    (⟨1, 0, 0⟩ : Vec3 α).Cross ⟨0, 1, 0⟩ = ⟨0, 0, 1⟩ := by
  refine ⟨?_, ?_, ?_, ?_⟩
  · simp only [Vec3.Dot, Vec3.Cross]; ring
  · simp only [Vec3.Dot, Vec3.Cross]; ring
  · rw [Vec3_mul_def]
    simp only [Vec3.Cross, Vec3.mk.injEq]
    refine ⟨?_, ?_, ?_⟩ <;> ring
  · simp [Vec3.Cross]

/-! ## Normalize -/

section NormalizeLemmas

variable {α : Type} [LinearOrderedField α]

theorem sqrt_zero_of_mul_self (M : Cmath α)
    (hsq : ∀ s : α, 0 ≤ s → M.sqrt s * M.sqrt s = s) : M.sqrt 0 = 0 :=
  mul_self_eq_zero.mp (hsq 0 le_rfl)

theorem sqrt_one_of_mul_self (M : Cmath α)
    (hsq : ∀ s : α, 0 ≤ s → M.sqrt s * M.sqrt s = s) (hnn : ∀ s : α, 0 ≤ M.sqrt s) :
    M.sqrt 1 = 1 := by
  have h := hsq 1 zero_le_one
  have h0 := hnn 1
  nlinarith [h, h0]

theorem sqrt_eq_zero_iff (M : Cmath α)
    (hsq : ∀ s : α, 0 ≤ s → M.sqrt s * M.sqrt s = s) {s : α} (hs : 0 ≤ s) :
    M.sqrt s = 0 ↔ s = 0 := by
  constructor
  · intro h
    have := hsq s hs
    rw [h, mul_zero] at this
    exact this.symm
  · intro h
    rw [h]
    exact sqrt_zero_of_mul_self M hsq

theorem sum_squares3_nonneg (x y z : α) : 0 ≤ x * x + y * y + z * z := by
  nlinarith [mul_self_nonneg x, mul_self_nonneg y, mul_self_nonneg z]

theorem sum_squares3_eq_zero (x y z : α) :
    x * x + y * y + z * z = 0 ↔ x = 0 ∧ y = 0 ∧ z = 0 := by
  constructor
  · intro h
    have hx : x * x = 0 := by
      nlinarith [mul_self_nonneg x, mul_self_nonneg y, mul_self_nonneg z]
    have hy : y * y = 0 := by
      nlinarith [mul_self_nonneg x, mul_self_nonneg y, mul_self_nonneg z]
    have hz : z * z = 0 := by
      nlinarith [mul_self_nonneg x, mul_self_nonneg y, mul_self_nonneg z]
    exact ⟨mul_self_eq_zero.mp hx, mul_self_eq_zero.mp hy, mul_self_eq_zero.mp hz⟩
  · rintro ⟨rfl, rfl, rfl⟩
    ring

theorem Vec3_Magnitude_eq_zero_iff (M : Cmath α)
    (hsq : ∀ s : α, 0 ≤ s → M.sqrt s * M.sqrt s = s) (v : Vec3 α) :
    v.Magnitude M = 0 ↔ v = ⟨0, 0, 0⟩ := by
  unfold Vec3.Magnitude
  rw [sqrt_eq_zero_iff M hsq (sum_squares3_nonneg _ _ _), sum_squares3_eq_zero]
  constructor
  · rintro ⟨hx, hy, hz⟩
    exact Vec3.ext hx hy hz
  · intro h
    rw [h]
    exact ⟨rfl, rfl, rfl⟩

theorem Vec2_Magnitude_eq_zero_iff (M : Cmath α)
    (hsq : ∀ s : α, 0 ≤ s → M.sqrt s * M.sqrt s = s) (v : Vec2 α) :
    v.Magnitude M = 0 ↔ v = ⟨0, 0⟩ := by
  unfold Vec2.Magnitude
  have h2 : v.x * v.x + v.y * v.y = v.x * v.x + v.y * v.y + 0 * 0 := by ring
  rw [sqrt_eq_zero_iff M hsq (by rw [h2]; exact sum_squares3_nonneg _ _ _), h2,
    sum_squares3_eq_zero]
  constructor
  · rintro ⟨hx, hy, -⟩
    exact Vec2.ext hx hy
  · intro h
    rw [h]
    exact ⟨rfl, rfl, rfl⟩

/-- The squared components of `v * (1 / |v|)` add up to one. -/
theorem Vec3_sum_squares_scaled (M : Cmath α)
    (hsq : ∀ s : α, 0 ≤ s → M.sqrt s * M.sqrt s = s) (v : Vec3 α)
    (hv : v.Magnitude M ≠ 0) :
    v.x * (1 / v.Magnitude M) * (v.x * (1 / v.Magnitude M))
      + v.y * (1 / v.Magnitude M) * (v.y * (1 / v.Magnitude M))
      + v.z * (1 / v.Magnitude M) * (v.z * (1 / v.Magnitude M)) = 1 := by
  have hm : v.Magnitude M * v.Magnitude M = v.x * v.x + v.y * v.y + v.z * v.z :=
    hsq _ (sum_squares3_nonneg _ _ _)
  have hring : v.x * (1 / v.Magnitude M) * (v.x * (1 / v.Magnitude M))
      + v.y * (1 / v.Magnitude M) * (v.y * (1 / v.Magnitude M))
      + v.z * (1 / v.Magnitude M) * (v.z * (1 / v.Magnitude M))
      = (v.x * v.x + v.y * v.y + v.z * v.z) / (v.Magnitude M * v.Magnitude M) := by ring
  rw [hring, ← hm, div_self (mul_ne_zero hv hv)]

theorem Vec2_sum_squares_scaled (M : Cmath α)
    (hsq : ∀ s : α, 0 ≤ s → M.sqrt s * M.sqrt s = s) (v : Vec2 α)
    (hv : v.Magnitude M ≠ 0) :
    v.x * (1 / v.Magnitude M) * (v.x * (1 / v.Magnitude M))
      + v.y * (1 / v.Magnitude M) * (v.y * (1 / v.Magnitude M)) = 1 := by
  have hm : v.Magnitude M * v.Magnitude M = v.x * v.x + v.y * v.y := by
    have h2 : v.x * v.x + v.y * v.y = v.x * v.x + v.y * v.y + 0 * 0 := by ring
    exact hsq _ (by rw [h2]; exact sum_squares3_nonneg _ _ _)
  have hring : v.x * (1 / v.Magnitude M) * (v.x * (1 / v.Magnitude M))
      + v.y * (1 / v.Magnitude M) * (v.y * (1 / v.Magnitude M))
      = (v.x * v.x + v.y * v.y) / (v.Magnitude M * v.Magnitude M) := by ring
  rw [hring, ← hm, div_self (mul_ne_zero hv hv)]

end NormalizeLemmas

/-- C11, amended: in exact arithmetic (over an ordered field, with
`std::sqrt` the exact square root: `sqrt s * sqrt s = s` and `sqrt s ≥ 0` for
`s ≥ 0`), `Normalize` of a `Vec3`, and likewise of a `Vec2`, throws exactly
when the vector is the zero vector; for a non-zero vector it returns the
vector scaled by `1 / |v|`, and the result has magnitude `1`. -/
theorem Normalize_spec {α : Type} [LinearOrderedField α] [DecidableEq α] (M : Cmath α)
    (hsq : ∀ s : α, 0 ≤ s → M.sqrt s * M.sqrt s = s) (hnn : ∀ s : α, 0 ≤ M.sqrt s)
    (v : Vec3 α) (w : Vec2 α) :
    (v.Normalize M = .invalidArgument "Cannot normalize a zero vector." ↔ v = ⟨0, 0, 0⟩) ∧
    (v ≠ ⟨0, 0, 0⟩ → v.Normalize M = .value (v * (1 / v.Magnitude M)) ∧
      (v * (1 / v.Magnitude M)).Magnitude M = 1) ∧
    (w.Normalize M = .invalidArgument "Cannot normalize a zero vector." ↔ w = ⟨0, 0⟩) ∧
    (w ≠ ⟨0, 0⟩ → w.Normalize M = .value (w * (1 / w.Magnitude M)) ∧
      (w * (1 / w.Magnitude M)).Magnitude M = 1) := by
  have hv3 : v ≠ ⟨0, 0, 0⟩ → v.Normalize M = .value (v * (1 / v.Magnitude M)) ∧
      (v * (1 / v.Magnitude M)).Magnitude M = 1 := by
    intro hv
    have hm : v.Magnitude M ≠ 0 := fun h => hv ((Vec3_Magnitude_eq_zero_iff M hsq v).mp h)
    refine ⟨by rw [Vec3.Normalize, if_neg hm], ?_⟩
    rw [Vec3_mul_def]
    show M.sqrt _ = 1
    rw [Vec3_sum_squares_scaled M hsq v hm]
    exact sqrt_one_of_mul_self M hsq hnn
  have hv2 : w ≠ ⟨0, 0⟩ → w.Normalize M = .value (w * (1 / w.Magnitude M)) ∧
      (w * (1 / w.Magnitude M)).Magnitude M = 1 := by
    intro hw
    have hm : w.Magnitude M ≠ 0 := fun h => hw ((Vec2_Magnitude_eq_zero_iff M hsq w).mp h)
    refine ⟨by rw [Vec2.Normalize, if_neg hm], ?_⟩
    rw [Vec2_mul_def]
    show M.sqrt _ = 1
    rw [Vec2_sum_squares_scaled M hsq w hm]
    exact sqrt_one_of_mul_self M hsq hnn
  refine ⟨⟨?_, ?_⟩, hv3, ⟨?_, ?_⟩, hv2⟩
  · intro h
    by_contra hv
    rw [(hv3 hv).1] at h
    exact Outcome.noConfusion h
  · intro hv
    rw [Vec3.Normalize, if_pos ((Vec3_Magnitude_eq_zero_iff M hsq v).mpr hv)]
  · intro h
    by_contra hw
    rw [(hv2 hw).1] at h
    exact Outcome.noConfusion h
  · intro hw
    rw [Vec2.Normalize, if_pos ((Vec2_Magnitude_eq_zero_iff M hsq w).mpr hw)]

/-- C11 amended, over the reals with `Real.sqrt`, at `v = (3, 4, 0)` and `w = (3, 4)`. -/
theorem Normalize_spec_witness :
    ((⟨3, 4, 0⟩ : Vec3 ℝ) ≠ ⟨0, 0, 0⟩) ∧ ((⟨3, 4⟩ : Vec2 ℝ) ≠ ⟨0, 0⟩) ∧
    ((⟨3, 4, 0⟩ : Vec3 ℝ) * (1 / (⟨3, 4, 0⟩ : Vec3 ℝ).Magnitude
        ⟨Real.sqrt, Real.cos, Real.sin⟩)).Magnitude ⟨Real.sqrt, Real.cos, Real.sin⟩ = 1 ∧
    ((⟨3, 4⟩ : Vec2 ℝ) * (1 / (⟨3, 4⟩ : Vec2 ℝ).Magnitude
        ⟨Real.sqrt, Real.cos, Real.sin⟩)).Magnitude ⟨Real.sqrt, Real.cos, Real.sin⟩ = 1 :=
  have h3 : (⟨3, 4, 0⟩ : Vec3 ℝ) ≠ ⟨0, 0, 0⟩ := by
    intro h
    have := congrArg Vec3.x h
    norm_num at this
  have h2 : (⟨3, 4⟩ : Vec2 ℝ) ≠ ⟨0, 0⟩ := by
    intro h
    have := congrArg Vec2.x h
    norm_num at this
  have h := Normalize_spec (⟨Real.sqrt, Real.cos, Real.sin⟩ : Cmath ℝ)
    (fun s hs => Real.mul_self_sqrt hs) Real.sqrt_nonneg ⟨3, 4, 0⟩ ⟨3, 4⟩
  ⟨h3, h2, (h.2.1 h3).2, (h.2.2.2 h2).2⟩

/-! ## Rotate and ProjectOnto -/

section RotateLemmas

variable {α : Type} [Field α]

/-- With `cos = 1` and `sin = 0` the formula of `Rotate` returns `v`. -/
theorem Vec3.rodrigues_of_cos_one (n v : Vec3 α) :
    v * (1 : α) + n.Cross v * (0 : α) + n * (n.Dot v * (1 - 1)) = v := by
  rw [Vec3_mul_def, Vec3_mul_def, Vec3_mul_def, Vec3.add_def, Vec3.add_def]
  apply Vec3.ext <;> simp

/-- The formula of `Rotate` keeps the sum of the squared components when the
axis is a unit vector and `cos² + sin² = 1`. -/
theorem Vec3.rodrigues_sum_squares (n v : Vec3 α) (c s : α)
    (hN : n.x * n.x + n.y * n.y + n.z * n.z = 1) (hcs : c * c + s * s = 1) :
    (v * c + n.Cross v * s + n * (n.Dot v * (1 - c))).x
        * (v * c + n.Cross v * s + n * (n.Dot v * (1 - c))).x
      + (v * c + n.Cross v * s + n * (n.Dot v * (1 - c))).y
        * (v * c + n.Cross v * s + n * (n.Dot v * (1 - c))).y
      + (v * c + n.Cross v * s + n * (n.Dot v * (1 - c))).z
        * (v * c + n.Cross v * s + n * (n.Dot v * (1 - c))).z
      = v.x * v.x + v.y * v.y + v.z * v.z := by
  rw [Vec3_mul_def, Vec3_mul_def, Vec3_mul_def, Vec3.add_def, Vec3.add_def]
  simp only [Vec3.Cross, Vec3.Dot]
  linear_combination
    (s * s * (v.x * v.x + v.y * v.y + v.z * v.z)
      + (1 - c) * (1 - c) * ((n.x * v.x + n.y * v.y + n.z * v.z)
        * (n.x * v.x + n.y * v.y + n.z * v.z))) * hN
    + ((v.x * v.x + v.y * v.y + v.z * v.z)
      - (n.x * v.x + n.y * v.y + n.z * v.z) * (n.x * v.x + n.y * v.y + n.z * v.z)) * hcs

/-- `Rotate` on an axis of non-zero magnitude does not throw. -/
theorem Vec3.Rotate_of_ne_zero [DecidableEq α] (M : Cmath α) (v axis : Vec3 α) (angle : α)
    (h : axis.Magnitude M ≠ 0) :
    v.Rotate M axis angle
      = .value (v * M.cos angle
        + (axis * (1 / axis.Magnitude M)).Cross v * M.sin angle
        + (axis * (1 / axis.Magnitude M))
          * ((axis * (1 / axis.Magnitude M)).Dot v * (1 - M.cos angle))) := by
  unfold Vec3.Rotate
  rw [Vec3.Normalize, if_neg h]

end RotateLemmas

/-- C12: for every `Vec3` `v` and every axis of magnitude `1`, with
`cos 0 = cos 2π = 1` and `sin 0 = sin 2π = 0`, `v.Rotate(axis, 0)` and
`v.Rotate(axis, 2π)` return `v`; neither throws. -/
theorem Rotate_identity {α : Type} [Field α] [DecidableEq α] (M : Cmath α)
    (v axis : Vec3 α) (twoPi : α) (haxis : axis.Magnitude M = 1)
    (hc0 : M.cos 0 = 1) (hs0 : M.sin 0 = 0) (hc2 : M.cos twoPi = 1)
    (hs2 : M.sin twoPi = 0) :
    v.Rotate M axis 0 = .value v ∧ v.Rotate M axis twoPi = .value v := by
  have hne : axis.Magnitude M ≠ 0 := by rw [haxis]; exact one_ne_zero
  constructor
  · rw [Vec3.Rotate_of_ne_zero M v axis 0 hne, hc0, hs0, Vec3.rodrigues_of_cos_one]
  · rw [Vec3.Rotate_of_ne_zero M v axis twoPi hne, hc2, hs2, Vec3.rodrigues_of_cos_one]

/-- C12, over the reals with `Real.cos`, `Real.sin`, `2 * Real.pi`, at
`v = (1, 2, 3)` and the axis `(0, 0, 1)`. -/
theorem Rotate_identity_witness :
    (⟨1, 2, 3⟩ : Vec3 ℝ).Rotate ⟨Real.sqrt, Real.cos, Real.sin⟩ ⟨0, 0, 1⟩ 0
      = .value ⟨1, 2, 3⟩ ∧
    (⟨1, 2, 3⟩ : Vec3 ℝ).Rotate ⟨Real.sqrt, Real.cos, Real.sin⟩ ⟨0, 0, 1⟩ (2 * Real.pi)
      = .value ⟨1, 2, 3⟩ :=
  Rotate_identity (⟨Real.sqrt, Real.cos, Real.sin⟩ : Cmath ℝ) ⟨1, 2, 3⟩ ⟨0, 0, 1⟩
    (2 * Real.pi) (by simp [Vec3.Magnitude]) Real.cos_zero Real.sin_zero Real.cos_two_pi
    Real.sin_two_pi

/-- C13 (defect): `ProjectOnto` has no guard. With `other` the zero vector it
throws nothing and returns a vector, the quotient by `|other|² = 0` taken as
the arithmetic gives it; for every `other` it returns
`other * (Dot(v, other) / (|other| * |other|))`. -/
theorem ProjectOnto_zero_returns {α : Type} [Field α] (M : Cmath α) (v : Vec3 α) :
    (∃ r, v.ProjectOnto M ⟨0, 0, 0⟩ = .value r) ∧
    (∀ (other : Vec3 α) (what : String), v.ProjectOnto M other ≠ .invalidArgument what) ∧
    (∀ other : Vec3 α, v.ProjectOnto M other
      = .value (other * (v.Dot other / (other.Magnitude M * other.Magnitude M)))) :=
  ⟨⟨_, rfl⟩, fun _ _ h => Outcome.noConfusion h, fun _ => rfl⟩

/-- C17: with `std::sqrt` the exact square root and `cos² θ + sin² θ = 1`,
for every `v`, every non-zero axis and every angle `θ`, `v.Rotate(axis, θ)`
returns a vector of the magnitude of `v`. -/
theorem Rotate_preserves_magnitude {α : Type} [LinearOrderedField α] [DecidableEq α]
    (M : Cmath α) (hsq : ∀ s : α, 0 ≤ s → M.sqrt s * M.sqrt s = s) (v axis : Vec3 α)
    (angle : α) (haxis : axis ≠ ⟨0, 0, 0⟩)
    (hcs : M.cos angle * M.cos angle + M.sin angle * M.sin angle = 1) :
    ∃ r, v.Rotate M axis angle = .value r ∧ r.Magnitude M = v.Magnitude M := by
  have hne : axis.Magnitude M ≠ 0 :=
    fun h => haxis ((Vec3_Magnitude_eq_zero_iff M hsq axis).mp h)
  refine ⟨_, Vec3.Rotate_of_ne_zero M v axis angle hne, ?_⟩
  have hN := Vec3_sum_squares_scaled M hsq axis hne
  unfold Vec3.Magnitude
  rw [Vec3.rodrigues_sum_squares _ v _ _ (by rw [Vec3_mul_def]; exact hN) hcs]

/-- C17, over the reals, at `v = (1, 2, 3)`, the axis `(0, 0, 2)` and the
angle `1`. -/
theorem Rotate_preserves_magnitude_witness :
    ∃ r, (⟨1, 2, 3⟩ : Vec3 ℝ).Rotate ⟨Real.sqrt, Real.cos, Real.sin⟩ ⟨0, 0, 2⟩ 1 = .value r ∧
      r.Magnitude ⟨Real.sqrt, Real.cos, Real.sin⟩
        = (⟨1, 2, 3⟩ : Vec3 ℝ).Magnitude ⟨Real.sqrt, Real.cos, Real.sin⟩ :=
  Rotate_preserves_magnitude (⟨Real.sqrt, Real.cos, Real.sin⟩ : Cmath ℝ)
    (fun s hs => Real.mul_self_sqrt hs) ⟨1, 2, 3⟩ ⟨0, 0, 2⟩ 1
    (by
      intro h
      have := congrArg Vec3.z h
      norm_num at this)
    (by
      have := Real.sin_sq_add_cos_sq 1
      nlinarith [this])

/-! ## Random source -/

/-- C14 (defect): `RandomInt` and `RandomDouble` compare `min` with `max`
nowhere. For no arguments do they throw a domain error, and on a reversed
range, as in `RandomInt(5, 1)` and `RandomDouble(5, 1)`, they build the
distribution on a range its precondition excludes: the call has no defined
behaviour, whatever the generator state. -/
theorem Random_reversed_range_undefined {G α : Type} [LinearOrderedField α]
    (R : StdRandom G α) (gen : G) :
    RandomInt R 5 1 gen = .undefined ∧ RandomDouble R (5 : α) 1 gen = .undefined ∧
    (∀ min max : Int, max < min → RandomInt R min max gen = .undefined) ∧
    (∀ min max : α, max < min → RandomDouble R min max gen = .undefined) ∧
    (∀ (min max : Int) (what : String), RandomInt R min max gen ≠ .invalidArgument what) ∧
    (∀ (min max : α) (what : String),
      RandomDouble R min max gen ≠ .invalidArgument what) := by
  have hint : ∀ min max : Int, max < min → RandomInt R min max gen = .undefined := by
    intro min max h
    rw [RandomInt, if_neg (not_le.mpr h)]
  have hreal : ∀ min max : α, max < min → RandomDouble R min max gen = .undefined := by
    intro min max h
    rw [RandomDouble, if_neg (not_le.mpr h)]
  refine ⟨hint 5 1 (by norm_num), hreal 5 1 (by norm_num), hint, hreal, ?_, ?_⟩
  · intro min max what
    unfold RandomInt
    split_ifs <;> exact fun h => Outcome.noConfusion h
  · intro min max what
    unfold RandomDouble
    split_ifs <;> exact fun h => Outcome.noConfusion h

/-! ## DotProduct -/

section DotProductLemmas

variable {α : Type} [Field α]

/-- The loop of `DotProduct` on two sequences of one length. -/
theorem DotProduct_loop (a b : List α) (h : a.length = b.length) :
    forLoop a.length (fun i result =>
        match a[i]?, b[i]? with
        | some x, some y => some (result + x * y)
        | _, _ => none) (0 : α)
      = some (∑ i ∈ Finset.range a.length, a.getD i 0 * b.getD i 0) := by
  obtain ⟨r, hr, hinv⟩ := forLoop_invariant
    (fun k (t : α) => t = ∑ i ∈ Finset.range k, a.getD i 0 * b.getD i 0) a.length
    (fun i result =>
        match a[i]?, b[i]? with
        | some x, some y => some (result + x * y)
        | _, _ => none) (0 : α) (by simp)
    (by
      intro i hi t ht
      have hib : i < b.length := by rw [← h]; exact hi
      refine ⟨t + a.getD i 0 * b.getD i 0, ?_, ?_⟩
      · simp [List.getElem?_eq_getElem hi, List.getElem?_eq_getElem hib,
          List.getD_eq_getElem?_getD]
      · show t + a.getD i 0 * b.getD i 0 = ∑ k ∈ Finset.range (i + 1), a.getD k 0 * b.getD k 0
        rw [Finset.sum_range_succ, ht])
  rw [hr, hinv]

end DotProductLemmas

/-- C15: for all sequences `a` and `b`, `DotProduct a b` throws the shape
error exactly when their lengths differ, and otherwise returns the sum over
`i` of `a[i] * b[i]`, which is `0` for empty sequences; and
`DotProduct [1,2,3] [4,5,6] = 32`. -/
theorem DotProduct_spec {α : Type} [Field α] (a b : List α) :
    (DotProduct a b = .invalidArgument "Vectors must be of the same size."
      ↔ a.length ≠ b.length) ∧
    (a.length = b.length →
      DotProduct a b = .value (∑ i ∈ Finset.range a.length, a.getD i 0 * b.getD i 0)) ∧
    DotProduct ([] : List α) [] = .value 0 ∧
    DotProduct ([1, 2, 3] : List α) [4, 5, 6] = .value 32 := by
  have hval : ∀ a b : List α, a.length = b.length →
      DotProduct a b = .value (∑ i ∈ Finset.range a.length, a.getD i 0 * b.getD i 0) := by
    intro a b h
    unfold DotProduct
    rw [if_neg (by simpa using h), DotProduct_loop a b h]
  refine ⟨⟨?_, ?_⟩, hval a b, ?_, ?_⟩
  · intro h hlen
    rw [hval a b hlen] at h
    exact Outcome.noConfusion h
  · intro h
    unfold DotProduct
    rw [if_pos h]
  · rw [hval [] [] rfl]
    simp
  · rw [hval [1, 2, 3] [4, 5, 6] rfl]
    simp [Finset.sum_range_succ]
    norm_num

/-- C15, at `a = [1, 2, 3]`, `b = [4, 5, 6]` over the rationals. -/
theorem DotProduct_spec_witness :
    DotProduct ([1, 2, 3] : List ℚ) [4, 5, 6]
      = .value (∑ i ∈ Finset.range ([1, 2, 3] : List ℚ).length,
          ([1, 2, 3] : List ℚ).getD i 0 * ([4, 5, 6] : List ℚ).getD i 0) :=
  (DotProduct_spec ([1, 2, 3] : List ℚ) [4, 5, 6]).2.1 rfl

/-! ## Atomic operations without interference -/

theorem runAlone_cons (op : Bool → Call × Int → Call × Int) (f : Bool) (fs : List Bool)
    (s : Call × Int) : runAlone op (f :: fs) s = runAlone op fs (op f s) := rfl

/-- A call that takes no step from a state `s` stays there. -/
theorem runAlone_fixed (op : Bool → Call × Int → Call × Int) (s : Call × Int)
    (hfix : ∀ sp, op sp s = s) :
    ∀ flags : List Bool, runAlone op flags s = s := by
  intro flags
  induction flags with
  | nil => rfl
  | cons f fs ih => rw [runAlone_cons, hfix, ih]

/-- A compare-and-swap loop running alone from `expected = cell = c`: it has
stored `x` and returned if and only if one of its exchanges was not a
spurious failure, and until then the cell still holds `c`. -/
theorem runAlone_loop (op : Bool → Call × Int → Call × Int) (c x : Int)
    (hloop : ∀ sp, op sp (.loop c, c)
      = if sp = false then (.returned, x) else (.loop c, c))
    (hret : ∀ sp, op sp (.returned, x) = (.returned, x)) :
    ∀ flags : List Bool, runAlone op flags (.loop c, c)
      = if false ∈ flags then (.returned, x) else (.loop c, c) := by
  intro flags
  induction flags with
  | nil => rfl
  | cons sp fs ih =>
    rw [runAlone_cons, hloop]
    cases sp with
    | false =>
      rw [if_pos rfl, runAlone_fixed op _ hret, if_pos (List.mem_cons_self _ _)]
    | true =>
      rw [if_neg (by simp), ih]
      simp

/-- The truncated quotient of an `int` by a non-zero `int` is an `int`,
except for `INT_MIN / -1`. -/
theorem tdiv_in_int (c v : Int) (hv : v ≠ 0) (h₁ : -2147483648 ≤ c) (h₂ : c ≤ 2147483647)
    (hne : ¬ (c = -2147483648 ∧ v = -1)) :
    -2147483648 ≤ Int.tdiv c v ∧ Int.tdiv c v ≤ 2147483647 := by
  by_cases hv1 : v = 1
  · subst hv1
    rw [Int.tdiv_one]
    exact ⟨h₁, h₂⟩
  by_cases hv2 : v = -1
  · subst hv2
    rw [Int.tdiv_neg, Int.tdiv_one]
    have : c ≠ -2147483648 := fun h => hne ⟨h, rfl⟩
    omega
  have hnat : 2 ≤ v.natAbs := by omega
  have habs : (Int.tdiv c v).natAbs ≤ 1073741824 := by
    rw [Int.natAbs_tdiv]
    show c.natAbs / v.natAbs ≤ 1073741824
    have h := Nat.div_le_div_left hnat (by decide : 0 < 2) (a := c.natAbs)
    omega
  omega

/-- C16 (defect): `AtomicDivide(cell, -1)` on a cell holding `INT_MIN`, run
with no other thread, passes the guard `value == 0`, loads the cell, and
stops in the evaluation of `expected / value`, whose quotient `2147483648`
is no `int`: from its third step on the call is stopped with the cell still
holding `INT_MIN`, and at no step has it returned. -/
theorem AtomicDivide_INT_MIN_by_minus_one :
    (∀ (sp sp' sp'' : Bool) (flags : List Bool),
      runAlone (AtomicDivide (-1)) (sp :: sp' :: sp'' :: flags) (.entry, -2147483648)
        = (.trapped, -2147483648)) ∧
    (∀ flags : List Bool,
      (runAlone (AtomicDivide (-1)) flags (.entry, -2147483648)).1 ≠ .returned) ∧
    Int.tdiv (-2147483648) (-1) = 2147483648 := by
  have h3 : ∀ (sp sp' sp'' : Bool) (flags : List Bool),
      runAlone (AtomicDivide (-1)) (sp :: sp' :: sp'' :: flags) (.entry, -2147483648)
        = (.trapped, -2147483648) := by
    intro sp sp' sp'' flags
    rw [runAlone_cons, runAlone_cons, runAlone_cons]
    exact runAlone_fixed _ _ (fun _ => rfl) flags
  refine ⟨h3, ?_, by decide⟩
  intro flags
  match flags with
  | [] => exact fun h => Call.noConfusion h
  | [_] => exact fun h => Call.noConfusion h
  | [_, _] => exact fun h => Call.noConfusion h
  | sp :: sp' :: sp'' :: fs =>
    rw [h3]
    exact fun h => Call.noConfusion h

/-- Run with no other thread, `AtomicAdd` and `AtomicSubtract` store `c + v`
and `c - v` reduced to 32 bits in their one step and return;
`AtomicMultiply` has stored `c * v` reduced to 32 bits, and `AtomicDivide`,
for `int` `c` and `v ≠ 0` other than `c = INT_MIN`, `v = -1`, has stored
`c / v` truncated toward zero, and returned, exactly when an exchange after
the load was not a spurious failure; until then the cell holds `c`. A call
that has returned takes no further step. -/
theorem Atomic_alone (c v : Int) :
    AtomicAdd v (.entry, c) = (.returned, wrap32 (c + v)) ∧
    AtomicSubtract v (.entry, c) = (.returned, wrap32 (c - v)) ∧
    (∀ (sp : Bool) (flags : List Bool),
      runAlone (AtomicMultiply v) (sp :: flags) (.entry, c)
        = if false ∈ flags then (.returned, wrap32 (c * v)) else (.loop c, c)) ∧
    (v ≠ 0 → -2147483648 ≤ c → c ≤ 2147483647 → ¬ (c = -2147483648 ∧ v = -1) →
      ∀ (sp sp' : Bool) (flags : List Bool),
        runAlone (AtomicDivide v) (sp :: sp' :: flags) (.entry, c)
          = if false ∈ flags then (.returned, Int.tdiv c v) else (.loop c, c)) ∧
    (∀ (x : Int) (sp : Bool) (flags : List Bool),
      AtomicAdd v (.returned, x) = (.returned, x) ∧
      AtomicSubtract v (.returned, x) = (.returned, x) ∧
      runAlone (AtomicMultiply v) (sp :: flags) (.returned, x) = (.returned, x) ∧
      runAlone (AtomicDivide v) (sp :: flags) (.returned, x) = (.returned, x)) := by
  refine ⟨rfl, rfl, ?_, ?_, ?_⟩
  · intro sp flags
    rw [runAlone_cons]
    exact runAlone_loop (AtomicMultiply v) c (wrap32 (c * v))
      (fun sp => by simp [AtomicMultiply]) (fun _ => rfl) flags
  · intro hv _ _ hne sp sp' flags
    rw [runAlone_cons, runAlone_cons]
    have h1 : AtomicDivide v sp (.entry, c) = (.checked, c) := by
      simp [AtomicDivide, hv]
    rw [h1]
    exact runAlone_loop (AtomicDivide v) c (Int.tdiv c v)
      (fun sp => by
        show (if c = -2147483648 ∧ v = -1 then (Call.trapped, c)
          else if c = c ∧ sp = false then (Call.returned, Int.tdiv c v)
          else (Call.loop c, c)) = _
        rw [if_neg hne]
        simp)
      (fun _ => rfl) flags
  · intro x sp flags
    exact ⟨rfl, rfl, runAlone_fixed _ _ (fun _ => rfl) _,
      runAlone_fixed _ _ (fun _ => rfl) _⟩

/-- The division alone at `c = -7`, `v = 2`: it stores `-3` once the exchange
succeeds, here after one spurious failure. -/
theorem Atomic_alone_example :
    runAlone (AtomicDivide 2) [false, false, true, false] (.entry, -7)
      = (if false ∈ [true, false] then (.returned, Int.tdiv (-7) 2)
          else (.loop (-7), -7)) ∧
    Int.tdiv (-7) 2 = -3 :=
  ⟨(Atomic_alone (-7) 2).2.2.2.1 (by decide) (by decide) (by decide) (by decide)
      false false [true, false],
    by decide⟩

/-! ## Bounds of MultiplyMatrices and Factorial -/

/-- C18 as stated fails: `a = [[]]` (one row, no column) and `b = []` (no
row) are rectangular and pass the dimension check `a[0].size() == b.size()`,
and the next statement reads `b[0]` out of range. -/
theorem MultiplyMatrices_empty_right_out_of_range :
    IsMatrix ([[]] : List (List ℚ)) 1 0 ∧ IsMatrix ([] : List (List ℚ)) 0 3 ∧
    MultiplyMatrices ([[]] : List (List ℚ)) [] = .outOfRange := by
  refine ⟨by simp [IsMatrix], by simp [IsMatrix], ?_⟩
  simp [MultiplyMatrices]

/-- C18, amended: for rectangular `a` (`m × n`) and `b` (`n × p`) with at
least one row each, no index access of `MultiplyMatrices` is out of range:
the call returns, the reads `a[i][k]` and `b[k][j]` of the loops are defined,
and the result has `m` rows, each of length `p`. -/
theorem MultiplyMatrices_in_bounds {α : Type} [Field α] (a b : List (List α))
    (m n p : Nat) (hm : 0 < m) (hn : 0 < n) (ha : IsMatrix a m n) (hb : IsMatrix b n p) :
    MultiplyMatrices a b ≠ .outOfRange ∧
    (∃ r, MultiplyMatrices a b = .value r ∧ r.length = m ∧ ∀ row ∈ r, row.length = p) ∧
    (a[0]?).isSome ∧ (b[0]?).isSome ∧
    (∀ i k, i < m → k < n → (read a i k).isSome) ∧
    (∀ k j, k < n → j < p → (read b k j).isSome) := by
  obtain ⟨r, hr, hrm, -⟩ := MultiplyMatrices_of_isMatrix hm hn ha hb
  obtain ⟨a0, ha0, -⟩ := ha.row hm
  obtain ⟨b0, hb0, -⟩ := hb.row hn
  refine ⟨?_, ⟨r, hr, hrm.1, hrm.2⟩, by simp [ha0], by simp [hb0], ?_, ?_⟩
  · rw [hr]
    exact fun h => Outcome.noConfusion h
  · intro i k hi hk
    simp [read_of_isMatrix ha hi hk]
  · intro k j hk hj
    simp [read_of_isMatrix hb hk hj]

/-- C18 amended, at `a = [[1, 2]]`, `b = [[3], [4]]` over the rationals. -/
theorem MultiplyMatrices_in_bounds_witness :
    MultiplyMatrices ([[1, 2]] : List (List ℚ)) [[3], [4]] ≠ .outOfRange ∧
    ∃ r, MultiplyMatrices ([[1, 2]] : List (List ℚ)) [[3], [4]] = .value r ∧
      r.length = 1 ∧ ∀ row ∈ r, row.length = 1 :=
  have h := MultiplyMatrices_in_bounds ([[1, 2]] : List (List ℚ)) [[3], [4]] 1 2 1
    (by decide) (by decide) (by simp [IsMatrix]) (by simp [IsMatrix])
  ⟨h.1, h.2.1⟩

theorem factorial_20 : Nat.factorial 20 = 2432902008176640000 := by
  decide

/-- C19: for every `n` with `0 ≤ n ≤ 20`, given more fuel than `n`,
`Factorial(n)` returns `n!` itself, and every value `k!`, `k ≤ n`, that the
accumulator takes fits in a signed 64-bit integer; `Factorial(21)` returns
`-4249290049419214848`, which is not `21!`. -/
theorem Factorial_exact_up_to_20 (n : Int) (h₀ : 0 ≤ n) (h₂₀ : n ≤ 20) (fuel : Nat)
    (hf : n < (fuel : Int)) :
    Factorial fuel n = .value ((n.toNat.factorial : Nat) : Int) ∧
    (∀ k : Nat, k ≤ n.toNat → ((k.factorial : Nat) : Int) ≤ 9223372036854775807) ∧
    (∀ fuel' : Nat, 21 < fuel' → Factorial fuel' 21 = .value (-4249290049419214848)) ∧
    (-4249290049419214848 : Int) ≠ ((Nat.factorial 21 : Nat) : Int) := by
  have hbound : ∀ k : Nat, k ≤ 20 → ((k.factorial : Nat) : Int) ≤ 9223372036854775807 := by
    intro k hk
    have h := Nat.factorial_le hk
    rw [factorial_20] at h
    omega
  have h21 : Nat.factorial 21 = 51090942171709440000 := by
    rw [Nat.factorial_succ, factorial_20]
  refine ⟨?_, fun k hk => hbound k (by omega), ?_, ?_⟩
  · obtain ⟨m, rfl⟩ : ∃ m : Nat, n = (m : Int) := ⟨n.toNat, by omega⟩
    rw [Factorial_eq m (by omega) fuel (by omega), Int.toNat_ofNat,
      wrap64_of_long (by have := Int.ofNat_nonneg m.factorial; omega) (hbound m (by omega))]
  · intro fuel' hf'
    have h := Factorial_eq 21 (by norm_num) fuel' hf'
    rw [h21] at h
    rw [show ((21 : Nat) : Int) = 21 from rfl] at h
    rw [h]
    decide
  · rw [h21]
    decide

/-- C19, at `n = 20` with fuel `21`: `20! = 2432902008176640000`. -/
theorem Factorial_exact_up_to_20_witness :
    Factorial 21 20 = .value (((20 : Int).toNat.factorial : Nat) : Int) :=
  (Factorial_exact_up_to_20 20 (by decide) (by decide) 21 (by decide)).1

/-! ## Binary64 arithmetic on powers of two -/

theorem roundHalfEven_intCast (n : ℤ) : roundHalfEven (n : ℚ) = n := by
  unfold roundHalfEven
  rw [Int.floor_intCast, sub_self, if_pos (by norm_num)]

theorem roundHalfEven_of_lt_half {x : ℚ} (h₀ : 0 ≤ x) (h : x < 1 / 2) :
    roundHalfEven x = 0 := by
  have hf : ⌊x⌋ = 0 := Int.floor_eq_zero_iff.mpr ⟨h₀, by linarith⟩
  unfold roundHalfEven
  rw [hf, if_pos (by simpa using h)]

theorem two_zpow_pos (k : ℤ) : (0 : ℚ) < 2 ^ k := zpow_pos (by norm_num) k

theorem log_two_zpow (k : ℤ) : Int.log 2 |(2 : ℚ) ^ k| = k := by
  rw [abs_of_pos (two_zpow_pos k)]
  have h := Int.log_zpow (R := ℚ) (b := 2) (by norm_num) k
  simpa using h

/-- A power of two in the range of binary64, subnormals included, is its own
rounding. -/
theorem Double.round_two_zpow (k : ℤ) (h₁ : -1074 ≤ k) (h₂ : k ≤ 1023) :
    Double.round ((2 : ℚ) ^ k) = .finite (2 ^ k) := by
  have hne : (2 : ℚ) ^ k ≠ 0 := (two_zpow_pos k).ne'
  have hm : 0 ≤ k - (max k (-1022) - 52) := by
    rcases le_total k (-1022) with h | h
    · rw [max_eq_right h]; omega
    · rw [max_eq_left h]; omega
  have hq : (2 : ℚ) ^ k / 2 ^ (max k (-1022) - 52)
      = (((2 : ℤ) ^ (k - (max k (-1022) - 52)).toNat : ℤ) : ℚ) := by
    rw [← zpow_sub₀ (by norm_num : (2 : ℚ) ≠ 0)]
    push_cast
    rw [← zpow_natCast, Int.toNat_of_nonneg hm]
  have hr : ((roundHalfEven ((2 : ℚ) ^ k / 2 ^ (max k (-1022) - 52)) : ℤ) : ℚ)
      * 2 ^ (max k (-1022) - 52) = 2 ^ k := by
    rw [hq, roundHalfEven_intCast, ← hq, div_mul_cancel₀]
    exact (two_zpow_pos _).ne'
  have hlt : ¬ (2 : ℚ) ^ 1024 ≤ |(2 : ℚ) ^ k| := by
    rw [abs_of_pos (two_zpow_pos k), not_le]
    calc (2 : ℚ) ^ k < 2 ^ ((1024 : ℕ) : ℤ) :=
          zpow_lt_zpow_right₀ (by norm_num : (1 : ℚ) < 2) (by push_cast; omega)
      _ = 2 ^ 1024 := zpow_natCast 2 1024
  unfold Double.round
  rw [if_neg hne, log_two_zpow, hr, if_neg hlt]

/-- A power of two from `2 ^ 1024` on overflows to `+inf`. -/
theorem Double.round_two_zpow_of_large (k : ℤ) (h : 1024 ≤ k) :
    Double.round ((2 : ℚ) ^ k) = .inf false := by
  have hne : (2 : ℚ) ^ k ≠ 0 := (two_zpow_pos k).ne'
  have hmax : max k (-1022) = k := max_eq_left (by omega)
  have hq : (2 : ℚ) ^ k / 2 ^ (k - 52) = (((2 : ℤ) ^ 52 : ℤ) : ℚ) := by
    rw [← zpow_sub₀ (by norm_num : (2 : ℚ) ≠ 0)]
    have : k - (k - 52) = ((52 : ℕ) : ℤ) := by omega
    rw [this, zpow_natCast]
    norm_num
  have hr : ((roundHalfEven ((2 : ℚ) ^ k / 2 ^ (k - 52)) : ℤ) : ℚ) * 2 ^ (k - 52)
      = 2 ^ k := by
    rw [hq, roundHalfEven_intCast, ← hq, div_mul_cancel₀]
    exact (two_zpow_pos _).ne'
  have hge : (2 : ℚ) ^ 1024 ≤ |(2 : ℚ) ^ k| := by
    rw [abs_of_pos (two_zpow_pos k)]
    calc (2 : ℚ) ^ 1024 = 2 ^ ((1024 : ℕ) : ℤ) := (zpow_natCast 2 1024).symm
      _ ≤ 2 ^ k := zpow_le_zpow_right₀ (by norm_num : (1 : ℚ) ≤ 2) (by push_cast; omega)
  have hnn : ¬ (2 : ℚ) ^ k < 0 := not_lt.mpr (two_zpow_pos k).le
  unfold Double.round
  rw [if_neg hne, log_two_zpow, hmax, hr, if_pos hge]
  simp [hnn]

/-- A power of two below a quarter of `2 ^ (-1074)`, the least positive
binary64 value, underflows to zero. -/
theorem Double.round_two_zpow_of_tiny (k : ℤ) (h : k ≤ -1076) :
    Double.round ((2 : ℚ) ^ k) = .finite 0 := by
  have hne : (2 : ℚ) ^ k ≠ 0 := (two_zpow_pos k).ne'
  have hmax : max k (-1022) = -1022 := max_eq_right (by omega)
  have hq : (2 : ℚ) ^ k / 2 ^ ((-1022 : ℤ) - 52) = 2 ^ (k + 1074) := by
    rw [← zpow_sub₀ (by norm_num : (2 : ℚ) ≠ 0)]
    have he : k - ((-1022 : ℤ) - 52) = k + 1074 := by omega
    rw [he]
  have hsmall : (2 : ℚ) ^ (k + 1074) < 1 / 2 := by
    have h' := zpow_le_zpow_right₀ (by norm_num : (1 : ℚ) ≤ 2) (by omega : k + 1074 ≤ -2)
    have h4 : (2 : ℚ) ^ (-2 : ℤ) = 1 / 4 := by norm_num
    rw [h4] at h'
    linarith
  unfold Double.round
  rw [if_neg hne, log_two_zpow, hmax, hq,
    roundHalfEven_of_lt_half (two_zpow_pos _).le hsmall]
  simp

theorem Double.round_zero : Double.round 0 = .finite 0 := by
  unfold Double.round
  rw [if_pos rfl]

theorem Double.finite_mul_finite (a b : ℚ) :
    (Double.finite a) * (Double.finite b) = Double.round (a * b) := rfl

theorem Double.finite_add_finite (a b : ℚ) :
    (Double.finite a) + (Double.finite b) = Double.round (a + b) := rfl

theorem Double.finite_add_inf (a : ℚ) (s : Bool) :
    (Double.finite a) + (Double.inf s) = Double.inf s := rfl

theorem Double.inf_add_finite (a : ℚ) (s : Bool) :
    (Double.inf s) + (Double.finite a) = Double.inf s := rfl

theorem Double.zero_eq : (0 : Double) = Double.finite 0 := rfl

theorem Double.one_eq : (1 : Double) = Double.finite 1 := rfl

theorem MultiplyMatrices_singleton {α : Type} [Zero α] [Add α] [Mul α] (a b : α) :
    MultiplyMatrices [[a]] [[b]] = .value [[0 + a * b]] := by
  simp [MultiplyMatrices, forLoop, read, assign, List.range_succ]

theorem Vec3.Magnitude_mk {α : Type} [Add α] [Mul α] (M : Cmath α) (x y z : α) :
    (⟨x, y, z⟩ : Vec3 α).Magnitude M = M.sqrt (x * x + y * y + z * z) := rfl

theorem Vec3.mk_mul {α : Type} [Mul α] (x y z s : α) :
    (⟨x, y, z⟩ : Vec3 α) * s = ⟨x * s, y * s, z * s⟩ := rfl

theorem Double.inf_mul_finite (s : Bool) (b : ℚ) :
    (Double.inf s) * (Double.finite b)
      = if b = 0 then Double.nan else Double.inf (s != decide (b < 0)) := rfl

theorem Double.one_div_inf (s : Bool) : (1 : Double) / Double.inf s = 0 := rfl

theorem Double.sqrt_inf : Double.sqrt (Double.inf false) = Double.inf false := rfl

theorem Double.two_zpow_600_sq :
    (Double.finite (2 ^ (600 : ℤ))) * (Double.finite (2 ^ (600 : ℤ))) = Double.inf false := by
  rw [Double.finite_mul_finite, ← zpow_add₀ (by norm_num : (2 : ℚ) ≠ 0)]
  exact Double.round_two_zpow_of_large _ (by norm_num)

theorem Double.two_zpow_neg_600_sq :
    (Double.finite (2 ^ (-600 : ℤ))) * (Double.finite (2 ^ (-600 : ℤ))) = 0 := by
  rw [Double.finite_mul_finite, ← zpow_add₀ (by norm_num : (2 : ℚ) ≠ 0)]
  exact Double.round_two_zpow_of_tiny _ (by norm_num)

theorem Double.zero_mul_zero : (0 : Double) * 0 = 0 := by
  rw [Double.zero_eq, Double.finite_mul_finite, mul_zero, Double.round_zero]

theorem Double.zero_add_zero : (0 : Double) + 0 = 0 := by
  rw [Double.zero_eq, Double.finite_add_finite, add_zero, Double.round_zero]

theorem Double.finite_mul_zero (a : ℚ) : (Double.finite a) * (0 : Double) = 0 := by
  rw [Double.zero_eq, Double.finite_mul_finite, mul_zero, Double.round_zero]

theorem Double.sqrt_zero : Double.sqrt 0 = 0 := by
  rw [Double.zero_eq]
  simp [Double.sqrt]

/-- C2 as stated fails in binary64: with `A = B = [[2^600]]` and
`C = [[2^-600]]`, `A * B` overflows to `[[+inf]]` and `(A * B) * C` is
`[[+inf]]`, while `B * C` is `[[1]]` and `A * (B * C)` is `[[2^600]]`: the
two sides are not within any tolerance. -/
theorem MultiplyMatrices_binary64_not_associative :
    MultiplyMatrices ([[.finite (2 ^ (600 : ℤ))]] : List (List Double))
        [[.finite (2 ^ (600 : ℤ))]] = .value [[.inf false]] ∧
    MultiplyMatrices ([[.inf false]] : List (List Double))
        [[.finite (2 ^ (-600 : ℤ))]] = .value [[.inf false]] ∧
    MultiplyMatrices ([[.finite (2 ^ (600 : ℤ))]] : List (List Double))
        [[.finite (2 ^ (-600 : ℤ))]] = .value [[.finite 1]] ∧
    MultiplyMatrices ([[.finite (2 ^ (600 : ℤ))]] : List (List Double))
        [[.finite 1]] = .value [[.finite (2 ^ (600 : ℤ))]] ∧
    (Double.inf false ≠ Double.finite (2 ^ (600 : ℤ))) := by
  have hpos : ¬ (2 : ℚ) ^ (-600 : ℤ) < 0 := not_lt.mpr (two_zpow_pos _).le
  have hne : (2 : ℚ) ^ (-600 : ℤ) ≠ 0 := (two_zpow_pos _).ne'
  refine ⟨?_, ?_, ?_, ?_, fun h => Double.noConfusion h⟩
  · rw [MultiplyMatrices_singleton, Double.two_zpow_600_sq, Double.zero_eq,
      Double.finite_add_inf]
  · rw [MultiplyMatrices_singleton]
    have hmul : (Double.inf false) * (Double.finite (2 ^ (-600 : ℤ))) = Double.inf false := by
      rw [Double.inf_mul_finite, if_neg hne, decide_eq_false hpos]
      rfl
    rw [hmul, Double.zero_eq, Double.finite_add_inf]
  · rw [MultiplyMatrices_singleton, Double.finite_mul_finite,
      ← zpow_add₀ (by norm_num : (2 : ℚ) ≠ 0), Double.zero_eq]
    have h0 : ((600 : ℤ) + -600) = 0 := by norm_num
    rw [h0, Double.round_two_zpow 0 (by norm_num) (by norm_num), Double.finite_add_finite,
      zero_add, Double.round_two_zpow 0 (by norm_num) (by norm_num), zpow_zero]
  · rw [MultiplyMatrices_singleton, Double.finite_mul_finite, mul_one,
      Double.round_two_zpow 600 (by norm_num) (by norm_num), Double.zero_eq,
      Double.finite_add_finite, zero_add,
      Double.round_two_zpow 600 (by norm_num) (by norm_num)]

/-- C11 as stated fails in binary64. The non-zero vector `(2^-600, 0, 0)`
has its square underflow to `0`, so its computed magnitude is `0` and
`Normalize` throws; the vector `(2^600, 0, 0)` has its square overflow, its
computed magnitude is `+inf`, `1.0 / mag` is `0`, and `Normalize` returns the
zero vector, whose magnitude is `0`, not `1`. -/
theorem Normalize_binary64_underflow_overflow :
    (∀ cos sin : Double → Double,
      (⟨.finite (2 ^ (-600 : ℤ)), 0, 0⟩ : Vec3 Double) ≠ ⟨0, 0, 0⟩ ∧
      (⟨.finite (2 ^ (-600 : ℤ)), 0, 0⟩ : Vec3 Double).Normalize ⟨Double.sqrt, cos, sin⟩
        = .invalidArgument "Cannot normalize a zero vector.") ∧
    (∀ cos sin : Double → Double,
      (⟨.finite (2 ^ (600 : ℤ)), 0, 0⟩ : Vec3 Double).Normalize ⟨Double.sqrt, cos, sin⟩
        = .value ⟨0, 0, 0⟩ ∧
      (⟨0, 0, 0⟩ : Vec3 Double).Magnitude ⟨Double.sqrt, cos, sin⟩ = 0 ∧
      (0 : Double) ≠ 1) := by
  constructor
  · intro cos sin
    constructor
    · intro h
      have hx := congrArg Vec3.x h
      rw [Double.zero_eq] at hx
      injection hx with hq
      exact (two_zpow_pos _).ne' hq
    · have hmag : (⟨.finite (2 ^ (-600 : ℤ)), 0, 0⟩ : Vec3 Double).Magnitude
          ⟨Double.sqrt, cos, sin⟩ = 0 := by
        rw [Vec3.Magnitude_mk, Double.two_zpow_neg_600_sq, Double.zero_mul_zero,
          Double.zero_add_zero, Double.zero_add_zero]
        exact Double.sqrt_zero
      rw [Vec3.Normalize, if_pos hmag]
  · intro cos sin
    have hmag : (⟨.finite (2 ^ (600 : ℤ)), 0, 0⟩ : Vec3 Double).Magnitude
        ⟨Double.sqrt, cos, sin⟩ = Double.inf false := by
      rw [Vec3.Magnitude_mk, Double.two_zpow_600_sq, Double.zero_mul_zero, Double.zero_eq,
        Double.inf_add_finite, Double.inf_add_finite]
      exact Double.sqrt_inf
    have hne : Double.inf false ≠ (0 : Double) := fun h => Double.noConfusion h
    refine ⟨?_, ?_, ?_⟩
    · rw [Vec3.Normalize, hmag, if_neg hne, Double.one_div_inf, Vec3.mk_mul,
        Double.finite_mul_zero, Double.zero_mul_zero]
    · rw [Vec3.Magnitude_mk, Double.zero_mul_zero, Double.zero_add_zero,
        Double.zero_add_zero]
      exact Double.sqrt_zero
    · intro h
      rw [Double.zero_eq, Double.one_eq] at h
      injection h with hq
      exact zero_ne_one hq

end RMATH
